import Mathlib

set_option linter.unusedSectionVars false
set_option linter.unusedVariables false

/-!
Verification of the tomkv repository: the concurrent hash table
(`src/include/tomkv/internal/hash_table.hpp`, reached through
`unordered_map.hpp`) and the tree-mount storage (`storage.hpp`).

The embedding is sequential: each C++ member function is translated to a
pure Lean function on an explicit state.  Machine integers (`std::size_t`)
are modelled as `Nat` (no index computed here can overflow in any execution
the claims quantify over), wall-clock instants as `Int` parameters, and
fallible operations return `Option` / a `Storage × Except` pair.
-/

namespace TomKV

/-! ## Hash table (`internal/hash_table.hpp`)

A `HashTable` is the sequential state of `tomkv::internal::hash_table`:
the per-bucket singly linked node lists (head first, exactly as the C++
`my_list` chains), the `my_size` counter and the `my_rehash_required_flag`.
The bucket count (`my_bucket_count`) is the length of `buckets`; the two
are kept in lock step by every code path of the source.  The user hasher
is an explicit `hash : α → Nat` parameter (`my_hasher`), and `std::equal_to`
is decidable equality on the key type. -/

structure HashTable (α β : Type) where
  buckets : List (List (α × β))
  size : Nat
  rehashRequired : Bool
  deriving Repr

variable {α β : Type} [DecidableEq α] [DecidableEq β]

/-- The initial table: `my_bucket_count` starts at 8 in the constructor,
`my_size` at 0, the rehash flag `false`, all bucket lists empty. -/
def mkHashTable : HashTable α β :=
  { buckets := List.replicate 8 [], size := 0, rehashRequired := false }

/-- All entries of the table, in bucket order (the `for_each` view). -/
def HashTable.entries (ht : HashTable α β) : List (α × β) :=
  ht.buckets.flatten

/-- `hash_table::search` scans one bucket list from its head and returns the
first node whose key compares equal (`my_equality`). -/
def bucketSearch (k : α) (lst : List (α × β)) : Option (α × β) :=
  lst.find? (fun e => e.1 = k)

/-- `try_insert` on the target bucket during rehashing: the node is linked
in at the head of the bucket with index `hash key % bs.length`. -/
def rehashInsert (hash : α → Nat) (bs : List (List (α × β))) (e : α × β) :
    List (List (α × β)) :=
  bs.set (hash e.1 % bs.length) (e :: bs.getD (hash e.1 % bs.length) [])

/-- `hash_table::internal_rehash`: snapshot every bucket list, clear the
buckets, create the new half of the table (all empty), and re-insert every
node at the head of the bucket given by its hash modulo the doubled count.
The published bucket count becomes the length of the new bucket vector. -/
def internalRehash (hash : α → Nat) (ht : HashTable α β) : HashTable α β :=
  let bc := ht.buckets.length
  let cleared : List (List (α × β)) := List.replicate (2 * bc) []
  { ht with
    buckets := ht.buckets.foldl
      (fun bs lst => lst.foldl (rehashInsert hash) bs) cleared }

/-- `hash_table::rehash_if_necessary`: sequentially, if the flag is set the
operation rehashes and clears the flag (the bucket-count recheck in the
source only guards against concurrent rehashers). -/
def rehashIfNecessary (hash : α → Nat) (ht : HashTable α β) : HashTable α β :=
  if ht.rehashRequired then
    { internalRehash hash ht with rehashRequired := false }
  else ht

/-- `mark_rehash_required_if_necessary`: the flag is raised when
`size / bucket_count > 1.0`; on the naturals in range this is `sz > bc`. -/
def markRehashRequired (sz bc : Nat) (flag : Bool) : Bool :=
  flag || decide (sz > bc)

/-- `hash_table::internal_emplace`, sequential run.  Returns the new table,
the `bool` result and the entry the accessor references on exit
(`none` would mean an empty accessor; emplace always leaves it assigned).
On a duplicate key the source executes `accessor.assign(nodes.second)`,
i.e. the accessor is pointed at the *head* of the bucket list, which is
what `lst.head?` reproduces here. -/
def internalEmplace (hash : α → Nat) (ht : HashTable α β) (k : α) (v : β) :
    HashTable α β × Bool × Option (α × β) :=
  let ht := rehashIfNecessary hash ht
  let bc := ht.buckets.length
  let idx := hash k % bc
  let lst := ht.buckets.getD idx []
  match bucketSearch k lst with
  | some _ => (ht, false, lst.head?)
  | none =>
      ({ buckets := ht.buckets.set idx ((k, v) :: lst),
         size := ht.size + 1,
         rehashRequired := markRehashRequired (ht.size + 1) bc ht.rehashRequired },
       true, some (k, v))

/-- `hash_table::internal_find`, sequential run: rehash check, then scan the
bucket of `hash key % bucket_count`; on a hit the accessor is assigned to
the found node. -/
def internalFind (hash : α → Nat) (ht : HashTable α β) (k : α) :
    HashTable α β × Bool × Option (α × β) :=
  let ht := rehashIfNecessary hash ht
  let idx := hash k % ht.buckets.length
  match bucketSearch k (ht.buckets.getD idx []) with
  | some e => (ht, true, some e)
  | none => (ht, false, none)

/-- Well-formedness maintained by the table: a positive bucket count,
every node sitting in the bucket selected by its hash, and at most one
node per key (pairwise distinct keys across all buckets). -/
def HashTable.WF (hash : α → Nat) (ht : HashTable α β) : Prop :=
  0 < ht.buckets.length ∧
  (∀ i, i < ht.buckets.length →
    ∀ e ∈ ht.buckets.getD i [], hash e.1 % ht.buckets.length = i) ∧
  ht.entries.Pairwise (fun a b => a.1 ≠ b.1)

instance (hash : α → Nat) (ht : HashTable α β) : Decidable (ht.WF hash) := by
  unfold HashTable.WF
  infer_instance

/-- Bucket-placement invariant for a raw bucket vector: every entry sits in
the bucket selected by its hash modulo the vector length. -/
def placed (hash : α → Nat) (bs : List (List (α × β))) : Prop :=
  ∀ i, i < bs.length → ∀ e ∈ bs.getD i [], hash e.1 % bs.length = i

theorem getD_eq_get (bs : List (List (α × β))) (i : Nat) (h : i < bs.length) :
    bs.getD i [] = bs.get ⟨i, h⟩ := by
  simp [List.getD_eq_getElem?_getD, List.getElem?_eq_getElem h]

theorem rehashInsert_length (hash : α → Nat) (bs : List (List (α × β)))
    (e : α × β) : (rehashInsert hash bs e).length = bs.length := by
  simp [rehashInsert]

theorem rehashInsert_flatten_perm (hash : α → Nat) (bs : List (List (α × β)))
    (e : α × β) (h : 0 < bs.length) :
    (rehashInsert hash bs e).flatten.Perm (e :: bs.flatten) := by
  set i := hash e.1 % bs.length with hi_def
  have hi : i < bs.length := Nat.mod_lt _ h
  have hdecomp : bs.take i ++ bs.get ⟨i, hi⟩ :: bs.drop (i + 1) = bs := by
    conv_rhs => rw [← List.take_append_drop i bs]
    congr 1
    rw [List.drop_eq_getElem_cons hi]
    simp
  have hset : rehashInsert hash bs e =
      bs.take i ++ (e :: bs.get ⟨i, hi⟩) :: bs.drop (i + 1) := by
    rw [rehashInsert, getD_eq_get bs i hi, ← hi_def, List.set_eq_take_cons_drop _ hi]
  rw [hset]
  conv_rhs => rw [← hdecomp]
  simp only [List.flatten_append, List.flatten_cons]
  have h1 : (bs.take i).flatten ++ (e :: bs.get ⟨i, hi⟩ ++ (bs.drop (i + 1)).flatten)
      = (bs.take i).flatten ++ e :: (bs.get ⟨i, hi⟩ ++ (bs.drop (i + 1)).flatten) := by simp
  rw [h1]
  exact List.perm_middle

theorem rehashInsert_placed (hash : α → Nat) (bs : List (List (α × β)))
    (e : α × β) (h : 0 < bs.length) (hp : placed hash bs) :
    placed hash (rehashInsert hash bs e) := by
  intro j hj x hx
  rw [rehashInsert_length] at hj
  set i := hash e.1 % bs.length with hi_def
  have hi : i < bs.length := Nat.mod_lt _ h
  by_cases hij : i = j
  · subst hij
    rw [rehashInsert, List.getD_eq_getElem?_getD,
      List.getElem?_set_eq_of_lt _ hi] at hx
    simp only [Option.getD_some, List.mem_cons] at hx
    rcases hx with rfl | hx
    · simp [rehashInsert_length, hi_def.symm]
    · simpa [rehashInsert_length] using hp i hi x hx
  · rw [rehashInsert, List.getD_eq_getElem?_getD, List.getElem?_set_ne hij] at hx
    rw [rehashInsert_length]
    exact hp j hj x (by rwa [List.getD_eq_getElem?_getD])

theorem foldl_rehashInsert_length (hash : α → Nat) (l : List (α × β))
    (bs : List (List (α × β))) :
    (l.foldl (rehashInsert hash) bs).length = bs.length := by
  induction l generalizing bs with
  | nil => rfl
  | cons e es ih => simp [List.foldl_cons, ih, rehashInsert_length]

theorem foldl_rehashInsert_flatten_perm (hash : α → Nat) (l : List (α × β))
    (bs : List (List (α × β))) (h : 0 < bs.length) :
    (l.foldl (rehashInsert hash) bs).flatten.Perm (l ++ bs.flatten) := by
  induction l generalizing bs with
  | nil => simp
  | cons e es ih =>
    have h' : 0 < (rehashInsert hash bs e).length := by
      rwa [rehashInsert_length]
    have p1 := (ih (rehashInsert hash bs e) h').trans
      (List.Perm.append_left es (rehashInsert_flatten_perm hash bs e h))
    exact p1.trans List.perm_middle

theorem foldl_rehashInsert_placed (hash : α → Nat) (l : List (α × β))
    (bs : List (List (α × β))) (h : 0 < bs.length) (hp : placed hash bs) :
    placed hash (l.foldl (rehashInsert hash) bs) := by
  induction l generalizing bs with
  | nil => exact hp
  | cons e es ih =>
    exact ih _ (by rwa [rehashInsert_length]) (rehashInsert_placed hash bs e h hp)

theorem buckets_foldl_length (hash : α → Nat) (ls : List (List (α × β)))
    (bs : List (List (α × β))) :
    (ls.foldl (fun acc lst => lst.foldl (rehashInsert hash) acc) bs).length
      = bs.length := by
  induction ls generalizing bs with
  | nil => rfl
  | cons lst rest ih => simp [List.foldl_cons, ih, foldl_rehashInsert_length]

theorem buckets_foldl_flatten_perm (hash : α → Nat) (ls : List (List (α × β)))
    (bs : List (List (α × β))) (h : 0 < bs.length) :
    (ls.foldl (fun acc lst => lst.foldl (rehashInsert hash) acc) bs).flatten.Perm
      (ls.flatten ++ bs.flatten) := by
  induction ls generalizing bs with
  | nil => simp
  | cons lst rest ih =>
    have h' : 0 < (lst.foldl (rehashInsert hash) bs).length := by
      rwa [foldl_rehashInsert_length]
    have p1 := (ih (lst.foldl (rehashInsert hash) bs) h').trans
      (List.Perm.append_left rest.flatten
        (foldl_rehashInsert_flatten_perm hash lst bs h))
    have p2 : (rest.flatten ++ (lst ++ bs.flatten)).Perm
        ((lst :: rest).flatten ++ bs.flatten) := by
      simp only [List.flatten_cons, List.append_assoc]
      rw [← List.append_assoc, ← List.append_assoc]
      exact List.Perm.append_right bs.flatten List.perm_append_comm
    exact p1.trans p2

theorem buckets_foldl_placed (hash : α → Nat) (ls : List (List (α × β)))
    (bs : List (List (α × β))) (h : 0 < bs.length) (hp : placed hash bs) :
    placed hash (ls.foldl (fun acc lst => lst.foldl (rehashInsert hash) acc) bs) := by
  induction ls generalizing bs with
  | nil => exact hp
  | cons lst rest ih =>
    exact ih _ (by rwa [foldl_rehashInsert_length])
      (foldl_rehashInsert_placed hash lst bs h hp)

/-! ### Rehash-level lemmas -/

theorem internalRehash_length (hash : α → Nat) (ht : HashTable α β) :
    (internalRehash hash ht).buckets.length = 2 * ht.buckets.length := by
  simp [internalRehash, buckets_foldl_length]

theorem internalRehash_entries_perm (hash : α → Nat) (ht : HashTable α β)
    (h : 0 < ht.buckets.length) :
    (internalRehash hash ht).entries.Perm ht.entries := by
  have hpos : 0 < (List.replicate (2 * ht.buckets.length) ([] : List (α × β))).length := by
    simpa using Nat.mul_pos Nat.two_pos h
  have := buckets_foldl_flatten_perm hash ht.buckets
    (List.replicate (2 * ht.buckets.length) []) hpos
  simpa [internalRehash, HashTable.entries] using this

theorem internalRehash_placed (hash : α → Nat) (ht : HashTable α β)
    (h : 0 < ht.buckets.length) :
    placed hash (internalRehash hash ht).buckets := by
  have hpos : 0 < (List.replicate (2 * ht.buckets.length) ([] : List (α × β))).length := by
    simpa using Nat.mul_pos Nat.two_pos h
  have hp0 : placed hash (List.replicate (2 * ht.buckets.length) ([] : List (α × β))) := by
    intro i hi e he
    have hgd : (List.replicate (2 * ht.buckets.length) ([] : List (α × β))).getD i [] = [] := by
      rw [List.getD_eq_getElem?_getD, List.getElem?_replicate]
      split <;> rfl
    rw [hgd] at he
    cases he
  exact buckets_foldl_placed hash ht.buckets _ hpos hp0

/-- Two entries of a key-pairwise-distinct list with the same key coincide. -/
theorem pairwise_key_unique {l : List (α × β)}
    (hp : l.Pairwise (fun a b => a.1 ≠ b.1)) {a b : α × β}
    (ha : a ∈ l) (hb : b ∈ l) (hk : a.1 = b.1) : a = b := by
  induction l with
  | nil => cases ha
  | cons x xs ih =>
    rcases List.pairwise_cons.mp hp with ⟨hx, hxs⟩
    rcases List.mem_cons.mp ha with rfl | ha2
    · rcases List.mem_cons.mp hb with rfl | hb2
      · rfl
      · exact absurd hk (hx b hb2)
    · rcases List.mem_cons.mp hb with rfl | hb2
      · exact absurd hk.symm (hx a ha2)
      · exact ih hxs ha2 hb2

theorem wf_internalRehash (hash : α → Nat) (ht : HashTable α β)
    (hwf : ht.WF hash) : (internalRehash hash ht).WF hash := by
  obtain ⟨hpos, _, huniq⟩ := hwf
  refine ⟨?_, internalRehash_placed hash ht hpos, ?_⟩
  · rw [internalRehash_length]; omega
  · exact (List.Perm.pairwise_iff (fun hne => hne.symm)
      (internalRehash_entries_perm hash ht hpos)).mpr huniq

theorem wf_rehashIfNecessary (hash : α → Nat) (ht : HashTable α β)
    (hwf : ht.WF hash) : (rehashIfNecessary hash ht).WF hash := by
  unfold rehashIfNecessary
  split
  · exact wf_internalRehash hash ht hwf
  · exact hwf

theorem rehashIfNecessary_entries_perm (hash : α → Nat) (ht : HashTable α β)
    (hwf : ht.WF hash) :
    (rehashIfNecessary hash ht).entries.Perm ht.entries := by
  unfold rehashIfNecessary
  split
  · exact internalRehash_entries_perm hash ht hwf.1
  · exact List.Perm.refl _

/-- Membership in `entries` through a bucket index. -/
theorem mem_entries_iff (ht : HashTable α β) (e : α × β) :
    e ∈ ht.entries ↔ ∃ j, j < ht.buckets.length ∧ e ∈ ht.buckets.getD j [] := by
  constructor
  · intro h
    rcases List.mem_flatten.mp h with ⟨lst, hlst, he⟩
    rcases List.mem_iff_getElem.mp hlst with ⟨j, hj, rfl⟩
    exact ⟨j, hj, by rwa [getD_eq_get ht.buckets j hj, List.get_eq_getElem]⟩
  · rintro ⟨j, hj, he⟩
    refine List.mem_flatten.mpr ⟨ht.buckets.getD j [], ?_, he⟩
    rw [getD_eq_get ht.buckets j hj]
    exact List.get_mem _ _ _

/-- In a well-formed table, scanning the bucket of `hash k` finds exactly
the unique entry with key `k`. -/
theorem bucketSearch_of_mem (hash : α → Nat) (ht : HashTable α β)
    (hwf : ht.WF hash) {k : α} {w : β} (hmem : (k, w) ∈ ht.entries) :
    bucketSearch k (ht.buckets.getD (hash k % ht.buckets.length) []) = some (k, w) := by
  obtain ⟨hpos, hplaced, huniq⟩ := hwf
  rcases (mem_entries_iff ht (k, w)).mp hmem with ⟨j, hj, hbucket⟩
  have hjdx : hash k % ht.buckets.length = j := hplaced j hj (k, w) hbucket
  rw [hjdx]
  rcases hfind : bucketSearch k (ht.buckets.getD j []) with _ | e
  · exfalso
    rw [bucketSearch] at hfind
    exact List.find?_eq_none.mp hfind (k, w) hbucket (by simp)
  · have hkey : e.1 = k := by
      have := List.find?_some hfind
      simpa [bucketSearch] using this
    have hememb : e ∈ ht.entries :=
      (mem_entries_iff ht e).mpr ⟨j, hj, List.mem_of_find?_eq_some hfind⟩
    have : e = (k, w) := pairwise_key_unique huniq hememb hmem (by rw [hkey])
    rw [this]

/-- `internal_find` in a well-formed table exposes the unique entry
with the requested key. -/
theorem internalFind_of_mem (hash : α → Nat) (ht : HashTable α β)
    (hwf : ht.WF hash) {k : α} {w : β} (hmem : (k, w) ∈ ht.entries) :
    (internalFind hash ht k).2 = (true, some (k, w)) := by
  have hwf1 := wf_rehashIfNecessary hash ht hwf
  have hmem1 : (k, w) ∈ (rehashIfNecessary hash ht).entries :=
    ((rehashIfNecessary_entries_perm hash ht hwf).mem_iff).mpr hmem
  have hb := bucketSearch_of_mem hash _ hwf1 hmem1
  simp only [List.getD_eq_getElem?_getD] at hb
  simp [internalFind, hb]

/-! ### Emplace lemmas -/

theorem internalEmplace_dup (hash : α → Nat) (ht : HashTable α β) (k : α) (v : β)
    (e0 : α × β)
    (hs : bucketSearch k ((rehashIfNecessary hash ht).buckets.getD
      (hash k % (rehashIfNecessary hash ht).buckets.length) []) = some e0) :
    internalEmplace hash ht k v = (rehashIfNecessary hash ht, false,
      ((rehashIfNecessary hash ht).buckets.getD
        (hash k % (rehashIfNecessary hash ht).buckets.length) []).head?) := by
  simp only [List.getD_eq_getElem?_getD] at hs
  simp [internalEmplace, hs, List.getD_eq_getElem?_getD]

theorem internalEmplace_new (hash : α → Nat) (ht : HashTable α β) (k : α) (v : β)
    (hs : bucketSearch k ((rehashIfNecessary hash ht).buckets.getD
      (hash k % (rehashIfNecessary hash ht).buckets.length) []) = none) :
    internalEmplace hash ht k v =
      ({ buckets := rehashInsert hash (rehashIfNecessary hash ht).buckets (k, v),
         size := (rehashIfNecessary hash ht).size + 1,
         rehashRequired := markRehashRequired ((rehashIfNecessary hash ht).size + 1)
           (rehashIfNecessary hash ht).buckets.length
           (rehashIfNecessary hash ht).rehashRequired }, true, some (k, v)) := by
  simp only [List.getD_eq_getElem?_getD] at hs
  simp [internalEmplace, hs, rehashInsert, List.getD_eq_getElem?_getD]

/-- Claim C1: after `emplace(k,v)` returns `true`, `find(k)` returns `true`
and its accessor exposes exactly the entry `(k, v)`; after `emplace(k,v)`
returns `false`, some entry `(k, w)` existed before the call, `find(k)`
still returns `true` exposing that same `(k, w)`, and the map contents are
unchanged up to permutation — emplace never overwrites a mapped value. -/
theorem C1_emplace_find_consistent (hash : α → Nat) (ht : HashTable α β)
    (k : α) (v : β) (hwf : ht.WF hash) :
    ((internalEmplace hash ht k v).2.1 = true →
      (internalFind hash (internalEmplace hash ht k v).1 k).2 = (true, some (k, v))) ∧
    ((internalEmplace hash ht k v).2.1 = false →
      ∃ w, (k, w) ∈ ht.entries ∧
        (internalFind hash (internalEmplace hash ht k v).1 k).2 = (true, some (k, w)) ∧
        (internalEmplace hash ht k v).1.entries.Perm ht.entries) := by
  have hwf1 := wf_rehashIfNecessary hash ht hwf
  have hperm1 := rehashIfNecessary_entries_perm hash ht hwf
  set ht1 := rehashIfNecessary hash ht with hht1
  set idx := hash k % ht1.buckets.length with hidx
  rcases hs : bucketSearch k (ht1.buckets.getD idx []) with _ | e0
  · -- fresh key: the candidate is linked in
    have hemp := internalEmplace_new hash ht k v (by rwa [← hht1, ← hidx])
    have hfresh : ∀ e ∈ ht1.entries, k ≠ e.1 := by
      intro e he hke
      rcases (mem_entries_iff ht1 e).mp he with ⟨j, hj, hbucket⟩
      have hjdx : hash e.1 % ht1.buckets.length = j := hwf1.2.1 j hj e hbucket
      have : j = idx := by rw [← hjdx, ← hke, hidx]
      subst this
      have := List.find?_eq_none.mp (by rw [bucketSearch] at hs; exact hs) e hbucket
      simp [← hke] at this
    have hpermins : (internalEmplace hash ht k v).1.entries.Perm ((k, v) :: ht1.entries) := by
      rw [hemp]
      exact rehashInsert_flatten_perm hash ht1.buckets (k, v) hwf1.1
    have hwf2 : (internalEmplace hash ht k v).1.WF hash := by
      refine ⟨?_, ?_, ?_⟩
      · rw [hemp]
        simpa [rehashInsert_length] using hwf1.1
      · rw [hemp]
        exact rehashInsert_placed hash ht1.buckets (k, v) hwf1.1 hwf1.2.1
      · refine (List.Perm.pairwise_iff (fun hne => hne.symm) hpermins).mpr ?_
        exact List.pairwise_cons.mpr ⟨fun e he => hfresh e he, hwf1.2.2⟩
    have hmem2 : (k, v) ∈ (internalEmplace hash ht k v).1.entries :=
      hpermins.mem_iff.mpr (List.mem_cons_self _ _)
    constructor
    · intro _
      exact internalFind_of_mem hash _ hwf2 hmem2
    · intro hcontra
      rw [hemp] at hcontra
      cases hcontra
  · -- duplicate key: the accessor is pointed at the bucket head
    have hemp := internalEmplace_dup hash ht k v e0 (by rwa [← hht1, ← hidx])
    have hkey : e0.1 = k := by
      have := List.find?_some (by rw [bucketSearch] at hs; exact hs)
      simpa using this
    have hmem1 : e0 ∈ ht1.entries := by
      refine (mem_entries_iff ht1 e0).mpr ⟨idx, ?_, ?_⟩
      · exact hidx ▸ Nat.mod_lt _ hwf1.1
      · exact List.mem_of_find?_eq_some (by rw [bucketSearch] at hs; exact hs)
    have he0 : e0 = (k, e0.2) := by
      rw [← hkey]
    constructor
    · intro hcontra
      rw [hemp] at hcontra
      cases hcontra
    · intro _
      refine ⟨e0.2, ?_, ?_, ?_⟩
      · exact hperm1.mem_iff.mp (he0 ▸ hmem1)
      · rw [hemp]
        exact internalFind_of_mem hash ht1 hwf1 (he0 ▸ hmem1)
      · rw [hemp]
        exact hperm1

/-- Witness for C1 at a concrete input: the empty table with the identity
hash is well-formed and both branches of the claim evaluate. -/
theorem C1_witness :
    (mkHashTable : HashTable Nat Nat).WF (fun n => n) ∧
    (((internalEmplace (fun n => n) (mkHashTable : HashTable Nat Nat) 1 2).2.1 = true →
      (internalFind (fun n => n)
        (internalEmplace (fun n => n) (mkHashTable : HashTable Nat Nat) 1 2).1 1).2
          = (true, some (1, 2))) ∧
    ((internalEmplace (fun n => n) (mkHashTable : HashTable Nat Nat) 1 2).2.1 = false →
      ∃ w, (1, w) ∈ (mkHashTable : HashTable Nat Nat).entries ∧
        (internalFind (fun n => n)
          (internalEmplace (fun n => n) (mkHashTable : HashTable Nat Nat) 1 2).1 1).2
            = (true, some (1, w)) ∧
        (internalEmplace (fun n => n)
          (mkHashTable : HashTable Nat Nat) 1 2).1.entries.Perm
            (mkHashTable : HashTable Nat Nat).entries)) :=
  ⟨by decide, C1_emplace_find_consistent (fun n => n) mkHashTable 1 2 (by decide)⟩

/-- Claim C2: with bucket count `bc`, `internal_rehash` publishes bucket
count `2 * bc`, the multiset of entries is unchanged, every entry lands in
the bucket of its hash modulo `2 * bc`, and key-uniqueness is preserved. -/
theorem C2_rehash_doubles_preserves (hash : α → Nat) (ht : HashTable α β)
    (h : 0 < ht.buckets.length) :
    (internalRehash hash ht).buckets.length = 2 * ht.buckets.length ∧
    (internalRehash hash ht).entries.Perm ht.entries ∧
    (∀ i, i < (internalRehash hash ht).buckets.length →
      ∀ e ∈ (internalRehash hash ht).buckets.getD i [],
        hash e.1 % (2 * ht.buckets.length) = i) ∧
    (ht.entries.Pairwise (fun a b => a.1 ≠ b.1) →
      (internalRehash hash ht).entries.Pairwise (fun a b => a.1 ≠ b.1)) := by
  refine ⟨internalRehash_length hash ht, internalRehash_entries_perm hash ht h, ?_, ?_⟩
  · intro i hi e he
    have := internalRehash_placed hash ht h i hi e he
    rwa [internalRehash_length hash ht] at this
  · intro huniq
    exact (List.Perm.pairwise_iff (fun hne => hne.symm)
      (internalRehash_entries_perm hash ht h)).mpr huniq

/-- Witness for C2 at a concrete input: a two-entry table over 8 buckets. -/
theorem C2_witness :
    0 < ((internalEmplace (fun n => n)
      ((internalEmplace (fun n => n) (mkHashTable : HashTable Nat Nat) 1 10).1)
        9 90).1).buckets.length ∧
    ((internalRehash (fun n => n) ((internalEmplace (fun n => n)
      ((internalEmplace (fun n => n) (mkHashTable : HashTable Nat Nat) 1 10).1)
        9 90).1)).buckets.length = 2 * ((internalEmplace (fun n => n)
      ((internalEmplace (fun n => n) (mkHashTable : HashTable Nat Nat) 1 10).1)
        9 90).1).buckets.length ∧
    (internalRehash (fun n => n) ((internalEmplace (fun n => n)
      ((internalEmplace (fun n => n) (mkHashTable : HashTable Nat Nat) 1 10).1)
        9 90).1)).entries.Perm ((internalEmplace (fun n => n)
      ((internalEmplace (fun n => n) (mkHashTable : HashTable Nat Nat) 1 10).1)
        9 90).1).entries ∧
    (∀ i, i < (internalRehash (fun n => n) ((internalEmplace (fun n => n)
      ((internalEmplace (fun n => n) (mkHashTable : HashTable Nat Nat) 1 10).1)
        9 90).1)).buckets.length →
      ∀ e ∈ (internalRehash (fun n => n) ((internalEmplace (fun n => n)
        ((internalEmplace (fun n => n) (mkHashTable : HashTable Nat Nat) 1 10).1)
          9 90).1)).buckets.getD i [],
        (fun n => n) e.1 % (2 * ((internalEmplace (fun n => n)
          ((internalEmplace (fun n => n) (mkHashTable : HashTable Nat Nat) 1 10).1)
            9 90).1).buckets.length) = i) ∧
    (((internalEmplace (fun n => n)
      ((internalEmplace (fun n => n) (mkHashTable : HashTable Nat Nat) 1 10).1)
        9 90).1).entries.Pairwise (fun a b => a.1 ≠ b.1) →
      (internalRehash (fun n => n) ((internalEmplace (fun n => n)
        ((internalEmplace (fun n => n) (mkHashTable : HashTable Nat Nat) 1 10).1)
          9 90).1)).entries.Pairwise (fun a b => a.1 ≠ b.1))) :=
  ⟨by decide, C2_rehash_doubles_preserves (fun n => n) _ (by decide)⟩

/-- The concrete table exhibiting the duplicate-emplace accessor slip:
keys 1 and 9 collide in bucket 1 of the initial 8-bucket table, with the
node for key 9 at the head of the list. -/
def bugTable : HashTable Nat Nat :=
  (internalEmplace (fun n => n)
    ((internalEmplace (fun n => n) (mkHashTable : HashTable Nat Nat) 1 1).1) 9 9).1

/-- Claim C3, evaluated at the failing input: `emplace` of the duplicate
key 1 returns `false` and leaves the map unchanged, but the accessor is
assigned to the bucket head `(9, 9)` — an entry whose key is *not*
equivalent to 1 — because the source executes `accessor.assign(nodes.second)`
(the head) instead of `nodes.first` (the entry found with the equal key). -/
theorem C3_dup_accessor_head :
    (1, 1) ∈ bugTable.entries ∧
    (internalEmplace (fun n => n) bugTable 1 100).2.1 = false ∧
    (internalEmplace (fun n => n) bugTable 1 100).1.entries = bugTable.entries ∧
    (internalEmplace (fun n => n) bugTable 1 100).2.2 = some (9, 9) ∧
    (9 : Nat) ≠ 1 := by
  decide

/-! ## Storage (`storage.hpp`)

Paths, mount identifiers and tom identifiers are all `std::string`; they
are modelled as lists of characters.  A document ("tom") is abstracted as
a map from absolute node paths to the node record of §6 of the design: a
required `key` and `mapped` and the optional `date_created` / `lifetime`
integers (seconds since epoch).  `boost::property_tree` operations become:
`get_optional` on a field = projection of the record at the path,
`get` = the same but throwing `bad_path` when absent (the observer and
modifier bodies catch that and skip the binding), `put` = functional
update.  The wall clock `std::chrono::system_clock::now()` is an explicit
`now : Int` parameter, fixed for the run of one operation. -/

abbrev Path := List Char

structure TomNode (K M : Type) where
  key : K
  mapped : M
  dateCreated : Option Int
  lifetime : Option Int
  deriving Repr, DecidableEq

abbrev Tree (K M : Type) := Path → Option (TomNode K M)

/-- One `mount_node` of the mount list: tom identifier, internal path and
priority (`mount_info`). -/
structure MountNode where
  tomName : Path
  realPath : Path
  priority : Nat
  deriving Repr, DecidableEq

/-- One `tom_info` document handle: the optional materialized tree and the
two pending counters. -/
structure TomInfo (K M : Type) where
  tree : Option (Tree K M)
  pendingReaders : Nat
  pendingWriters : Nat

/-- The sequential state of a `storage`: the mount table (mount identifier
to mount-binding list, the hash table abstracted as its lookup function),
the tom table (tom identifier to document handle) and the contents of the
document files that `read_xml` / `write_xml` exchange trees with. -/
structure Storage (K M : Type) where
  mountTable : Path → Option (List MountNode)
  tomTable : Path → TomInfo K M
  files : Path → Tree K M

/-- Pointwise update of a string-indexed map. -/
def updateFn {γ : Type} (f : Path → γ) (x : Path) (v : γ) : Path → γ :=
  fun y => if y = x then v else f y

theorem dropWhile_tail_length_lt (p : Char → Bool) (path : Path)
    (h : path ≠ []) : ((path.dropWhile p).tail).length < path.length := by
  have hle : (path.dropWhile p).length ≤ path.length :=
    (List.dropWhile_sublist p).length_le
  have hpos : 0 < path.length := List.length_pos.mpr h
  cases hdw : path.dropWhile p with
  | nil => simpa using hpos
  | cons a l =>
    have : (a :: l).length ≤ path.length := hdw ▸ hle
    simp only [List.length_cons] at this
    simpa using Nat.lt_of_lt_of_le (Nat.lt_succ_self l.length) this

/-- `storage::split_and_find_impl`: grow the candidate mount identifier by
one '/'-separated chunk, look it up, recurse on a miss; an exhausted input
raises `unmounted_path`, modelled as `none`. -/
def splitAndFindImpl {γ : Type} (tbl : Path → Option γ) (mountPath path : Path) :
    Option (Path × Path × γ) :=
  if h : path = [] then none
  else
    match tbl (mountPath ++ path.takeWhile (fun c => c != '/')) with
    | some a => some (mountPath ++ path.takeWhile (fun c => c != '/'),
        (path.dropWhile (fun c => c != '/')).tail, a)
    | none => splitAndFindImpl tbl
        (mountPath ++ path.takeWhile (fun c => c != '/') ++ ['/'])
        ((path.dropWhile (fun c => c != '/')).tail)
termination_by path.length
decreasing_by exact dropWhile_tail_length_lt _ path h

/-- `storage::split_and_find`: the search starts from the empty candidate. -/
def splitAndFind {γ : Type} (tbl : Path → Option γ) (path : Path) :
    Option (Path × Path × γ) :=
  splitAndFindImpl tbl [] path

/-- The candidate mount identifiers probed by `split_and_find_impl`, in
probe order (ghost instrumentation of the same traversal). -/
def splitCandidates (mountPath path : Path) : List Path :=
  if h : path = [] then []
  else
    (mountPath ++ path.takeWhile (fun c => c != '/')) ::
      splitCandidates (mountPath ++ path.takeWhile (fun c => c != '/') ++ ['/'])
        ((path.dropWhile (fun c => c != '/')).tail)
termination_by path.length
decreasing_by exact dropWhile_tail_length_lt _ path h

/-! ### Path-resolver lemmas -/

theorem splitCandidates_extend (mountPath path : Path) :
    ∀ q ∈ splitCandidates mountPath path, ∃ s, q = mountPath ++ s := by
  induction mountPath, path using splitCandidates.induct with
  | case1 mountPath => intro q hq; rw [splitCandidates] at hq; cases hq
  | case2 mountPath path hne ih =>
    intro q hq
    rw [splitCandidates, dif_neg hne] at hq
    rcases List.mem_cons.mp hq with rfl | hq
    · exact ⟨path.takeWhile (fun c => c != '/'), rfl⟩
    · rcases ih q hq with ⟨s, rfl⟩
      exact ⟨path.takeWhile (fun c => c != '/') ++ '/' :: s, by simp⟩

theorem splitAndFindImpl_none_iff {γ : Type} (tbl : Path → Option γ)
    (mountPath path : Path) :
    splitAndFindImpl tbl mountPath path = none ↔
      ∀ q ∈ splitCandidates mountPath path, tbl q = none := by
  induction mountPath, path using splitCandidates.induct with
  | case1 mountPath =>
    rw [splitAndFindImpl, splitCandidates]
    simp
  | case2 mountPath path hne ih =>
    rw [splitAndFindImpl, dif_neg hne, splitCandidates, dif_neg hne]
    rcases htbl : tbl (mountPath ++ path.takeWhile (fun c => c != '/')) with _ | a
    · simpa [htbl] using ih
    · simp [htbl]

theorem splitAndFindImpl_some {γ : Type} (tbl : Path → Option γ)
    (mountPath path mp rem : Path) (a : γ)
    (h : splitAndFindImpl tbl mountPath path = some (mp, rem, a)) :
    tbl mp = some a ∧ mp ∈ splitCandidates mountPath path ∧
    (∀ q ∈ splitCandidates mountPath path, tbl q ≠ none → mp.length ≤ q.length) ∧
    (mountPath ++ path = mp ++ '/' :: rem ∨ (mountPath ++ path = mp ∧ rem = [])) := by
  induction mountPath, path using splitCandidates.induct with
  | case1 mountPath => rw [splitAndFindImpl] at h; cases h
  | case2 mountPath path hne ih =>
    rw [splitAndFindImpl, dif_neg hne] at h
    rw [splitCandidates, dif_neg hne]
    rcases htbl : tbl (mountPath ++ path.takeWhile (fun c => c != '/')) with _ | b
    · -- probe missed: the result comes from the recursive call
      rw [htbl] at h
      obtain ⟨h1, h2, h3, h4⟩ := ih h
      have hne2 : (path.dropWhile (fun c => c != '/')) ≠ [] := by
        intro hdw
        rw [splitCandidates] at h2
        rw [splitAndFindImpl] at h
        simp [hdw] at h2 h
      obtain ⟨c, l, hdw⟩ := List.exists_cons_of_ne_nil hne2
      have hslash : c = '/' := by
        have h0 : 0 < (path.dropWhile (fun c => c != '/')).length := by
          rw [hdw]; simp
        have := List.dropWhile_get_zero_not (p := fun c => c != '/') path h0
        simp [hdw] at this
        exact this
      have hpath : path = path.takeWhile (fun c => c != '/') ++
          '/' :: (path.dropWhile (fun c => c != '/')).tail := by
        conv_lhs => rw [← List.takeWhile_append_dropWhile (p := fun c => c != '/') (l := path)]
        rw [hdw, hslash]
        simp
      have hflat : mountPath ++ path =
          (mountPath ++ path.takeWhile (fun c => c != '/') ++ ['/']) ++
            (path.dropWhile (fun c => c != '/')).tail := by
        conv_lhs => rw [hpath]
        simp
      refine ⟨h1, List.mem_cons_of_mem _ h2, ?_, ?_⟩
      · intro q hq hqt
        rcases List.mem_cons.mp hq with rfl | hq2
        · exact absurd htbl hqt
        · exact h3 q hq2 hqt
      · rcases h4 with h4 | ⟨h4, h5⟩
        · left; rw [hflat]; exact h4
        · right; exact ⟨by rw [hflat]; exact h4, h5⟩
    · -- probe hit: the head candidate is returned
      rw [htbl] at h
      injection h with h1
      have hmp : mountPath ++ path.takeWhile (fun c => c != '/') = mp :=
        congrArg Prod.fst h1
      have hrem : (path.dropWhile (fun c => c != '/')).tail = rem :=
        congrArg (fun r => r.2.1) h1
      have hab : b = a := congrArg (fun r => r.2.2) h1
      subst hmp hrem hab
      refine ⟨htbl, List.mem_cons_self _ _, ?_, ?_⟩
      · intro q hq hqt
        rcases List.mem_cons.mp hq with rfl | hq2
        · exact Nat.le_refl _
        · rcases splitCandidates_extend _ _ q hq2 with ⟨s, hqs⟩
          rw [hqs]
          simp
      · rcases hdw : path.dropWhile (fun c => c != '/') with _ | ⟨c, l⟩
        · right
          have hpath : path = path.takeWhile (fun c => c != '/') := by
            conv_lhs => rw [← List.takeWhile_append_dropWhile (p := fun c => c != '/') (l := path)]
            rw [hdw]
            simp
          exact ⟨by rw [← hpath], rfl⟩
        · have hslash : c = '/' := by
            have h0 : 0 < (path.dropWhile (fun c => c != '/')).length := by
              rw [hdw]; simp
            have := List.dropWhile_get_zero_not (p := fun c => c != '/') path h0
            simp [hdw] at this
            exact this
          left
          have hpath : path = path.takeWhile (fun c => c != '/') ++ '/' :: l := by
            conv_lhs => rw [← List.takeWhile_append_dropWhile (p := fun c => c != '/') (l := path)]
            rw [hdw, hslash]
          conv_lhs => rw [hpath]
          simp

/-- The candidates probed by the resolver, described positionally: every
prefix of `path` cut immediately before an occurrence of '/', plus the
whole path whenever it is nonempty and does not end in '/'. -/
theorem mem_splitCandidates_iff (mountPath path q : Path) :
    q ∈ splitCandidates mountPath path ↔
      ∃ r, q = mountPath ++ r ∧ r <+: path ∧
        (path[r.length]? = some '/' ∨
         (r = path ∧ path ≠ [] ∧ path.getLast? ≠ some '/')) := by
  induction mountPath, path using splitCandidates.induct with
  | case1 mountPath =>
    constructor
    · intro hq
      rw [splitCandidates] at hq
      simp at hq
    · rintro ⟨r, hq, hpre, hC⟩
      have hr : r = [] := List.prefix_nil.mp hpre
      subst hr
      rcases hC with hC | ⟨_, hC, _⟩
      · simp at hC
      · exact absurd rfl hC
  | case2 mountPath path hne ih =>
    rw [splitCandidates, dif_neg hne]
    set b := path.takeWhile (fun c => c != '/') with hb
    rcases hdw : path.dropWhile (fun c => c != '/') with _ | ⟨c, l⟩
    · -- no '/' anywhere in the path: the only candidate is the whole path
      have hpath : path = b := by
        conv_lhs => rw [← List.takeWhile_append_dropWhile (p := fun c => c != '/') (l := path)]
        rw [hdw, ← hb]
        simp
      have hnomem : ('/' : Char) ∉ b := by
        intro hmem
        have := List.mem_takeWhile_imp (hb ▸ hmem)
        simp at this
      have hnoslash : ∀ i : Nat, path[i]? ≠ some '/' := by
        intro i hi
        exact hnomem (hpath ▸ List.getElem?_mem hi)
      constructor
      · intro hq
        have hqb : q = mountPath ++ b := by
          rcases List.mem_cons.mp hq with h | h
          · exact h
          · simp [splitCandidates] at h
        refine ⟨path, hqb.trans (congrArg _ hpath.symm), List.prefix_refl _,
          Or.inr ⟨rfl, hne, ?_⟩⟩
        intro hlast
        exact hnomem (hpath ▸ List.mem_of_mem_getLast? hlast)
      · rintro ⟨r, hq, hpre, hC⟩
        rcases hC with hC | ⟨rfl, _, _⟩
        · exact absurd hC (hnoslash _)
        · exact List.mem_cons.mpr (Or.inl (hq.trans (congrArg _ hpath)))
    · -- the first '/' sits right after `b`
      have hslash : c = '/' := by
        have h0 : 0 < (path.dropWhile (fun c => c != '/')).length := by
          rw [hdw]; simp
        have := List.dropWhile_get_zero_not (p := fun c => c != '/') path h0
        simp [hdw] at this
        exact this
      subst hslash
      have hpath : path = b ++ '/' :: l := by
        conv_lhs => rw [← List.takeWhile_append_dropWhile (p := fun c => c != '/') (l := path)]
        rw [hdw, ← hb]
      have hnomem : ('/' : Char) ∉ b := by
        intro hmem
        have := List.mem_takeWhile_imp (hb ▸ hmem)
        simp at this
      rw [hdw] at ih
      simp only [List.tail_cons] at ih
      constructor
      · intro hq
        rcases List.mem_cons.mp hq with h | h
        · refine ⟨b, h, hb ▸ List.takeWhile_prefix _, Or.inl ?_⟩
          rw [hpath, List.getElem?_append_right (Nat.le_refl _)]
          simp
        · rcases ih.mp h with ⟨r2, hq2, hpre2, hC2⟩
          refine ⟨b ++ '/' :: r2, by rw [hq2]; simp, ?_, ?_⟩
          · rw [hpath]
            rcases hpre2 with ⟨t, ht⟩
            exact ⟨t, by rw [← ht]; simp⟩
          · rcases hC2 with hC2 | ⟨rfl, hl, hlast⟩
            · left
              rw [hpath, List.getElem?_append_right (by simp)]
              have harith : (b ++ '/' :: r2).length - b.length = r2.length + 1 := by
                simp
              rw [harith, List.getElem?_cons_succ]
              exact hC2
            · right
              refine ⟨by rw [hpath], hne, ?_⟩
              intro hget
              rw [hpath] at hget
              rw [List.getLast?_append_of_ne_nil _
                  (show ('/' :: r2 : Path) ≠ [] by simp)] at hget
              rw [show ('/' :: r2 : Path) = ['/'] ++ r2 from rfl,
                List.getLast?_append_of_ne_nil _ hl] at hget
              exact hlast hget
      · rintro ⟨r, hq, hpre, hC⟩
        have hrtake : r = path.take r.length := List.prefix_iff_eq_take.mp hpre
        have hrlenle : r.length ≤ path.length := hpre.length_le
        have hpathlen : path.length = b.length + 1 + l.length := by
          rw [hpath]
          simp
          omega
        rcases Nat.lt_or_ge r.length (b.length + 1) with hlen | hlen
        · -- the candidate is `b` itself
          rcases hC with hC | ⟨rfl, _, hlast⟩
          · have hEq : r.length = b.length := by
              by_contra hne2
              have hlt : r.length < b.length := by omega
              rw [hpath, List.getElem?_append_left hlt] at hC
              exact hnomem (List.getElem?_mem hC)
            have hrb : r = b := by
              rw [hrtake, hEq, hpath, List.take_append_eq_append_take]
              simp
            exact List.mem_cons.mpr (Or.inl (by rw [hq, hrb]))
          · exfalso
            omega
        · -- the candidate extends past the first '/': use the tail recursion
          set r2 := l.take (r.length - b.length - 1) with hr2
          have hr2len : r2.length = r.length - b.length - 1 := by
            rw [hr2, List.length_take]
            omega
          have hr_decomp : r = b ++ '/' :: r2 := by
            rw [hrtake, hpath, List.take_append_eq_append_take,
              List.take_of_length_le (by omega)]
            have h2 : (('/' :: l : Path)).take (r.length - b.length) =
                '/' :: l.take (r.length - b.length - 1) := by
              rcases hk : r.length - b.length with _ | n
              · exact absurd hk (by omega)
              · simp [List.take_succ_cons]
            rw [h2, hr2]
          refine List.mem_cons.mpr (Or.inr (ih.mpr ⟨r2, ?_, hr2 ▸ List.take_prefix _ _, ?_⟩))
          · rw [hq, hr_decomp]
            simp
          · rcases hC with hC | ⟨hrp, _, hlast⟩
            · left
              rw [hpath, List.getElem?_append_right (by omega)] at hC
              have harith : r.length - b.length = r2.length + 1 := by omega
              rw [harith, List.getElem?_cons_succ] at hC
              exact hC
            · have hr2l : r2 = l := by
                have harith : r.length - b.length - 1 = l.length := by
                  have hrl : r.length = path.length := by rw [hrp]
                  omega
                rw [hr2, harith, List.take_length]
              have hlne : l ≠ [] := by
                intro h0
                subst h0
                apply hlast
                rw [hpath]
                rw [List.getLast?_append_of_ne_nil _
                    (show ('/' :: ([] : List Char) : Path) ≠ [] by simp)]
                rfl
              refine Or.inr ⟨hr2l, hlne, ?_⟩
              intro hget
              apply hlast
              rw [hpath]
              rw [List.getLast?_append_of_ne_nil _
                  (show ('/' :: l : Path) ≠ [] by simp)]
              rw [show ('/' :: l : Path) = ['/'] ++ l from rfl,
                List.getLast?_append_of_ne_nil _ hlne]
              exact hget

/-! ### Priority-resolution auxiliary map

The observer bodies of `internal_key` / `internal_value_read` build an
auxiliary multimap keyed by the tom key; each entry also carries the
priority of the binding that produced it.  `prioStep` is one body
iteration on that map (translated from the `eq_range` logic of the
source); the map is modelled as a list of entries, `emplace` appending at
the end and `erase(eq_range)` filtering the key out.  `E` is the entry
type, projected by `ekey`/`eprio`. -/

section Priority

variable {K E : Type} [DecidableEq K] (ekey : E → K) (eprio : E → Nat)

/-- One visit of the observer body on the auxiliary map: look up the
equal range of the entry's key; absent → emplace; present with strictly
higher new priority → erase the whole range, then (priority ≥ range's)
emplace; equal priority → emplace a duplicate; lower → skip. -/
def prioStep (acc : List E) (e : E) : List E :=
  match acc.find? (fun f => decide (ekey f = ekey e)) with
  | none => acc ++ [e]
  | some f =>
      let acc1 := if eprio f < eprio e then
          acc.filter (fun g => !decide (ekey g = ekey e)) else acc
      if eprio f ≤ eprio e then acc1 ++ [e] else acc1

/-- Spec-side predicate: `e` has the maximal priority among entries of
`l` with its key. -/
def prioPred (l : List E) (e : E) : Bool :=
  l.all (fun f => !decide (ekey f = ekey e) || decide (eprio f ≤ eprio e))

/-- Spec-side resolved map: the entries that survive priority
resolution, i.e. those with maximal priority for their key, in order. -/
def resolveMax (l : List E) : List E := l.filter (prioPred ekey eprio l)

theorem mem_resolveMax_iff (l : List E) (g : E) :
    g ∈ resolveMax ekey eprio l ↔
      g ∈ l ∧ ∀ f ∈ l, ekey f = ekey g → eprio f ≤ eprio g := by
  simp [resolveMax, prioPred, List.mem_filter, List.all_eq_true, imp_iff_not_or]

theorem exists_key_resolveMax (l : List E) (k : K)
    (hex : ∃ g ∈ l, ekey g = k) : ∃ f ∈ resolveMax ekey eprio l, ekey f = k := by
  rcases hex with ⟨g, hg, hgk⟩
  rcases harg : (l.filter (fun x => decide (ekey x = k))).argmax eprio with _ | f
  · exfalso
    rw [List.argmax_eq_none] at harg
    have : g ∈ l.filter (fun x => decide (ekey x = k)) :=
      List.mem_filter.mpr ⟨hg, by simp [hgk]⟩
    rw [harg] at this
    cases this
  · have hfmem := List.argmax_mem harg
    have hfl : f ∈ l := (List.mem_filter.mp hfmem).1
    have hfk : ekey f = k := by
      have := (List.mem_filter.mp hfmem).2
      simpa using this
    refine ⟨f, (mem_resolveMax_iff ekey eprio l f).mpr ⟨hfl, ?_⟩, hfk⟩
    intro x hx hxk
    exact List.le_of_mem_argmax
      (List.mem_filter.mpr ⟨hx, by simp [hxk, hfk]⟩) harg

theorem prioPred_append_single_ne (l : List E) (e g : E)
    (hk : ekey g ≠ ekey e) :
    prioPred ekey eprio (l ++ [e]) g = prioPred ekey eprio l g := by
  simp [prioPred, List.all_append, Ne.symm hk]

theorem prioPred_append_single_of_false (l : List E) (e g : E)
    (h : prioPred ekey eprio l g = false) :
    prioPred ekey eprio (l ++ [e]) g = false := by
  rw [prioPred, List.all_eq_false] at h ⊢
  rcases h with ⟨x, hx, hxp⟩
  exact ⟨x, List.mem_append_left _ hx, hxp⟩

theorem prioPred_false_of_witness (l : List E) (g x : E) (hx : x ∈ l)
    (hk : ekey x = ekey g) (hp : ¬ eprio x ≤ eprio g) :
    prioPred ekey eprio l g = false := by
  rw [prioPred, List.all_eq_false]
  refine ⟨x, hx, ?_⟩
  simp [hk]
  omega

theorem prioPred_true_of_bound (l : List E) (g : E)
    (hb : ∀ x ∈ l, ekey x = ekey g → eprio x ≤ eprio g) :
    prioPred ekey eprio l g = true := by
  rw [prioPred, List.all_eq_true]
  intro x hx
  by_cases hk : ekey x = ekey g
  · simp [hk, hb x hx hk]
  · simp [hk]

theorem prioPred_true_elim (l : List E) (g : E)
    (h : prioPred ekey eprio l g = true) :
    ∀ x ∈ l, ekey x = ekey g → eprio x ≤ eprio g := by
  rw [prioPred, List.all_eq_true] at h
  intro x hx hk
  have := h x hx
  simpa [hk] using this

theorem prioStep_resolveMax (l : List E) (e : E) :
    prioStep ekey eprio (resolveMax ekey eprio l) e =
      resolveMax ekey eprio (l ++ [e]) := by
  rcases hf : (resolveMax ekey eprio l).find? (fun f => decide (ekey f = ekey e)) with _ | f
  · -- no entry with this key exists yet
    have hnok : ∀ g ∈ l, ekey g ≠ ekey e := by
      intro g hg hkey
      rcases exists_key_resolveMax ekey eprio l (ekey e) ⟨g, hg, hkey⟩ with ⟨f, hfmem, hfkey⟩
      have := List.find?_eq_none.mp hf f hfmem
      simp [hfkey] at this
    rw [prioStep, hf]
    dsimp only
    conv_rhs => rw [resolveMax, List.filter_append]
    have he : prioPred ekey eprio (l ++ [e]) e = true := by
      apply prioPred_true_of_bound
      intro x hx hk
      rcases List.mem_append.mp hx with hx | hx
      · exact absurd hk (hnok x hx)
      · rcases List.mem_singleton.mp hx with rfl
        exact Nat.le_refl _
    have hl : l.filter (prioPred ekey eprio (l ++ [e])) =
        l.filter (prioPred ekey eprio l) := by
      apply List.filter_congr
      intro g hg
      exact prioPred_append_single_ne ekey eprio l e g (hnok g hg)
    rw [hl]
    simp [he, resolveMax]
  · -- an equal range exists; `f` is its first entry, of maximal priority
    have hfr : f ∈ resolveMax ekey eprio l := List.mem_of_find?_eq_some hf
    have hfkey : ekey f = ekey e := by
      have := List.find?_some hf
      simpa using this
    obtain ⟨hfl, hfmax⟩ := (mem_resolveMax_iff ekey eprio l f).mp hfr
    rw [prioStep, hf]
    dsimp only
    by_cases hlt : eprio f < eprio e
    · -- strictly higher priority: erase the range, emplace the entry
      rw [if_pos hlt, if_pos (Nat.le_of_lt hlt)]
      conv_rhs => rw [resolveMax, List.filter_append]
      have he : prioPred ekey eprio (l ++ [e]) e = true := by
        apply prioPred_true_of_bound
        intro x hx hk
        rcases List.mem_append.mp hx with hx | hx
        · have := hfmax x hx (hk.trans hfkey.symm)
          omega
        · rcases List.mem_singleton.mp hx with rfl
          exact Nat.le_refl _
      have hl : l.filter (prioPred ekey eprio (l ++ [e])) =
          (l.filter (prioPred ekey eprio l)).filter
            (fun g => !decide (ekey g = ekey e)) := by
        rw [List.filter_filter]
        apply List.filter_congr
        intro g hg
        by_cases hk : ekey g = ekey e
        · -- same key: strictly dominated by `e` on the left, erased on the right
          have hnot : ¬ eprio e ≤ eprio g := by
            have := hfmax g hg (hk.trans hfkey.symm)
            omega
          rw [prioPred_false_of_witness ekey eprio (l ++ [e]) g e
            (List.mem_append_right _ (List.mem_singleton_self e)) hk.symm hnot]
          simp [hk]
        · rw [prioPred_append_single_ne ekey eprio l e g hk]
          simp [hk]
      rw [hl]
      simp [he, resolveMax]
    · by_cases hle : eprio f ≤ eprio e
      · -- equal priority: keep the range, emplace a duplicate
        have heq : eprio f = eprio e := Nat.le_antisymm hle (Nat.not_lt.mp hlt)
        rw [if_neg hlt, if_pos hle]
        conv_rhs => rw [resolveMax, List.filter_append]
        have he : prioPred ekey eprio (l ++ [e]) e = true := by
          apply prioPred_true_of_bound
          intro x hx hk
          rcases List.mem_append.mp hx with hx | hx
          · have := hfmax x hx (hk.trans hfkey.symm)
            omega
          · rcases List.mem_singleton.mp hx with rfl
            exact Nat.le_refl _
        have hl : l.filter (prioPred ekey eprio (l ++ [e])) =
            l.filter (prioPred ekey eprio l) := by
          apply List.filter_congr
          intro g hg
          by_cases hk : ekey g = ekey e
          · rcases hPg : prioPred ekey eprio l g with _ | _
            · exact prioPred_append_single_of_false ekey eprio l e g hPg
            · have hgb := prioPred_true_elim ekey eprio l g hPg
              apply prioPred_true_of_bound
              intro x hx hxk
              rcases List.mem_append.mp hx with hx | hx
              · exact hgb x hx hxk
              · rcases List.mem_singleton.mp hx with rfl
                have h1 := hgb f hfl (hfkey.trans hk.symm)
                have h2 := hfmax g hg (hk.trans hfkey.symm)
                omega
          · exact prioPred_append_single_ne ekey eprio l e g hk
        rw [hl]
        simp [he, resolveMax]
      · -- strictly lower priority: skip the entry entirely
        rw [if_neg hlt, if_neg hle]
        conv_rhs => rw [resolveMax, List.filter_append]
        have he : prioPred ekey eprio (l ++ [e]) e = false := by
          apply prioPred_false_of_witness ekey eprio (l ++ [e]) e f
            (List.mem_append_left _ hfl) hfkey hle
        have hl : l.filter (prioPred ekey eprio (l ++ [e])) =
            l.filter (prioPred ekey eprio l) := by
          apply List.filter_congr
          intro g hg
          by_cases hk : ekey g = ekey e
          · rcases hPg : prioPred ekey eprio l g with _ | _
            · exact prioPred_append_single_of_false ekey eprio l e g hPg
            · have hgb := prioPred_true_elim ekey eprio l g hPg
              apply prioPred_true_of_bound
              intro x hx hxk
              rcases List.mem_append.mp hx with hx | hx
              · exact hgb x hx hxk
              · rcases List.mem_singleton.mp hx with rfl
                have h1 := hgb f hfl (hfkey.trans hk.symm)
                omega
          · exact prioPred_append_single_ne ekey eprio l e g hk
        rw [hl]
        simp [he, resolveMax]

/-- The auxiliary-map fold computes exactly the spec-side resolved map. -/
theorem prioFold_resolveMax (l : List E) :
    l.foldl (prioStep ekey eprio) [] = resolveMax ekey eprio l := by
  have main : ∀ rest pre,
      List.foldl (prioStep ekey eprio) (resolveMax ekey eprio pre) rest =
        resolveMax ekey eprio (pre ++ rest) := by
    intro rest
    induction rest with
    | nil => intro pre; simp
    | cons e es ih =>
      intro pre
      rw [List.foldl_cons, prioStep_resolveMax, ih (pre ++ [e])]
      congr 1
      simp
  have h0 : resolveMax ekey eprio ([] : List E) = [] := rfl
  have := main l []
  rw [h0] at this
  simpa using this

theorem countP_resolveMax [DecidableEq E] (l : List E) (e : E) :
    (resolveMax ekey eprio l).countP (fun f => decide (f = e)) =
      if ∀ f ∈ l, ekey f = ekey e → eprio f ≤ eprio e
      then l.countP (fun f => decide (f = e)) else 0 := by
  by_cases hp : ∀ f ∈ l, ekey f = ekey e → eprio f ≤ eprio e
  · rw [if_pos hp, resolveMax, List.countP_filter]
    apply List.countP_congr
    intro a ha
    by_cases hae : a = e
    · subst hae
      simp [prioPred_true_of_bound ekey eprio l a hp]
    · simp [hae]
  · rw [if_neg hp, List.countP_eq_zero.mpr]
    intro a ha
    simp only [decide_eq_true_eq]
    intro hae
    subst hae
    exact hp ((mem_resolveMax_iff ekey eprio l a).mp ha).2

theorem resolveMax_perm (l l' : List E) (h : l.Perm l') :
    (resolveMax ekey eprio l).Perm (resolveMax ekey eprio l') := by
  have hp : ∀ e, prioPred ekey eprio l e = prioPred ekey eprio l' e := by
    intro e
    rcases hb : prioPred ekey eprio l' e with _ | _
    · rcases hb2 : prioPred ekey eprio l e with _ | _
      · rfl
      · exfalso
        rw [prioPred, List.all_eq_true] at hb2
        have : prioPred ekey eprio l' e = true := by
          rw [prioPred, List.all_eq_true]
          intro f hf
          exact hb2 f (h.mem_iff.mpr hf)
        rw [this] at hb
        cases hb
    · rw [prioPred, List.all_eq_true] at hb
      rw [prioPred, List.all_eq_true]
      intro f hf
      exact hb f (h.mem_iff.mp hf)
  have h1 : resolveMax ekey eprio l = l.filter (prioPred ekey eprio l') := by
    rw [resolveMax]
    exact List.filter_congr (fun g _ => hp g)
  rw [h1, resolveMax]
  exact h.filter _

end Priority

/-! ### The operation envelope and operation bodies -/

variable {K M : Type}

/-- The `is_outdated` test of the observer bodies: present `date_created`
and `lifetime` with `now - lifetime > date_created`; a missing optional
field leaves `is_outdated == false`. -/
def outdatedB (now : Int) (n : TomNode K M) : Bool :=
  match n.dateCreated, n.lifetime with
  | some d, some l => decide (now - l > d)
  | _, _ => false

/-- The contribution one visited node makes to `internal_key`'s auxiliary
map before priority resolution: nothing when the node is absent (the
`ptree_bad_path` catch) or outdated, its key and the binding's priority
otherwise. -/
def liveKey (now : Int) (c : Option (TomNode K M) × Nat) : Option (K × Nat) :=
  match c.1 with
  | none => none
  | some n => if outdatedB now n then none else some (n.key, c.2)

/-- The contribution one visited node makes to `internal_value_read`:
key, mapped and the binding's priority, or nothing. -/
def liveValue (now : Int) (c : Option (TomNode K M) × Nat) :
    Option (K × M × Nat) :=
  match c.1 with
  | none => none
  | some n => if outdatedB now n then none else some (n.key, n.mapped, c.2)

/-- One `internal_key` body run over the node found at the node path. -/
def keyBodyStep [DecidableEq K] (now : Int) (acc : List (K × Nat))
    (c : Option (TomNode K M)) (p : Nat) : List (K × Nat) :=
  match c with
  | none => acc
  | some n =>
      if outdatedB now n then acc
      else prioStep Prod.fst Prod.snd acc (n.key, p)

/-- One `internal_value_read` body run over the node found at the path. -/
def valueBodyStep [DecidableEq K] (now : Int) (acc : List (K × M × Nat))
    (c : Option (TomNode K M)) (p : Nat) : List (K × M × Nat) :=
  match c with
  | none => acc
  | some n =>
      if outdatedB now n then acc
      else prioStep Prod.fst (fun e => e.2.2) acc (n.key, n.mapped, p)

/-- `internal_key`'s lambda body as passed to `basic_operation`. -/
def keyBody [DecidableEq K] (now : Int) :
    Path → Tree K M → Nat → List (K × Nat) → Tree K M × List (K × Nat) :=
  fun nodePath tree prio acc => (tree, keyBodyStep now acc (tree nodePath) prio)

/-- `internal_value_read`'s lambda body as passed to `basic_operation`. -/
def valueBody [DecidableEq K] (now : Int) :
    Path → Tree K M → Nat → List (K × M × Nat) → Tree K M × List (K × M × Nat) :=
  fun nodePath tree prio acc => (tree, valueBodyStep now acc (tree nodePath) prio)

/-- The constant "tom/root/" prefix prepended to every node path. -/
def tomRootPrefix : Path := "tom/root/".toList

/-- The absolute node path built by `basic_operation` step (f): the fixed
prefix, the binding's internal path, and the user remainder if any. -/
def nodePathOf (rem : Path) (b : MountNode) : Path :=
  tomRootPrefix ++ b.realPath ++ (if rem.isEmpty then [] else '/' :: rem)

/-- One iteration of the `basic_operation` loop over a mount binding:
find the document handle, bump and drop the pending counter across the
lock acquisition, materialize the tree from the file when absent, build
the node path, run the body, dump the tree to the file for writers when
no writer is pending, and destroy the tree when the handle is quiescent. -/
def bindingStep {σ : Type} (isWrite : Bool)
    (body : Path → Tree K M → Nat → σ → Tree K M × σ)
    (rem : Path) (st : Storage K M × σ) (b : MountNode) : Storage K M × σ :=
  let s := st.1
  let t0 := s.tomTable b.tomName
  let t1 := if isWrite then { t0 with pendingWriters := t0.pendingWriters + 1 }
            else { t0 with pendingReaders := t0.pendingReaders + 1 }
  let t2 := if isWrite then { t1 with pendingWriters := t1.pendingWriters - 1 }
            else { t1 with pendingReaders := t1.pendingReaders - 1 }
  let tr := match t2.tree with
            | some tr => tr
            | none => s.files b.tomName
  let res := body (nodePathOf rem b) tr b.priority st.2
  let files2 := if isWrite && (t2.pendingWriters == 0) then
      updateFn s.files b.tomName res.1 else s.files
  let t3 := if t2.pendingReaders == 0 && t2.pendingWriters == 0 then
      { t2 with tree := none } else { t2 with tree := some res.1 }
  ({ mountTable := s.mountTable,
     tomTable := updateFn s.tomTable b.tomName t3,
     files := files2 }, res.2)

/-- `storage::basic_operation`: resolve the path, snapshot the mount list
and fan the body over every binding; an unresolved path raises
`unmounted_path` (modelled as `Except.error ()`) with the state untouched. -/
def basicOperation {σ : Type} (isWrite : Bool)
    (body : Path → Tree K M → Nat → σ → Tree K M × σ)
    (s : Storage K M) (path : Path) (init : σ) :
    Storage K M × Except Unit σ :=
  match splitAndFind s.mountTable path with
  | none => (s, Except.error ())
  | some (_, rem, bindings) =>
      let r := bindings.foldl (bindingStep isWrite body rem) (s, init)
      (r.1, Except.ok r.2)

/-- `storage::internal_key`: run the key body over all bindings and strip
priorities from the auxiliary map. -/
def internalKey [DecidableEq K] (now : Int) (s : Storage K M) (path : Path) :
    Storage K M × Except Unit (List K) :=
  let r := basicOperation false (keyBody now) s path []
  (r.1, r.2.map (fun acc => acc.map Prod.fst))

/-- `storage::internal_value_read`: the shared priority-resolved read
underlying `mapped` and `value`. -/
def internalValueRead [DecidableEq K] (now : Int) (s : Storage K M) (path : Path) :
    Storage K M × Except Unit (List (K × M × Nat)) :=
  basicOperation false (valueBody now) s path []

/-- `storage::internal_mapped`: project the shared read to the mapped
components. -/
def internalMapped [DecidableEq K] (now : Int) (s : Storage K M) (path : Path) :
    Storage K M × Except Unit (List M) :=
  let r := internalValueRead now s path
  (r.1, r.2.map (fun acc => acc.map (fun e => e.2.1)))

/-- `storage::internal_value`: project the shared read to key-mapped
pairs. -/
def internalValue [DecidableEq K] (now : Int) (s : Storage K M) (path : Path) :
    Storage K M × Except Unit (List (K × M)) :=
  let r := internalValueRead now s path
  (r.1, r.2.map (fun acc => acc.map (fun e => (e.1, e.2.1))))

/-- `basic_insert`'s per-binding gate: insertion is allowed when the key
probe misses (node absent) or when both optional fields are present and
place the node in the past; a node with a key but at most one optional
field blocks insertion. -/
def insertAllowedB (now : Int) (c : Option (TomNode K M)) : Bool :=
  match c with
  | none => true
  | some n =>
      match n.dateCreated, n.lifetime with
      | some d, some l => decide (now - l > d)
      | _, _ => false

/-- `basic_insert`'s body: on an allowed binding write `key` and `mapped`;
with a lifetime argument also stamp `date_created := now` and the
lifetime; without one erase any stale `lifetime` child (the pre-existing
`date_created`, if any, is left in place); record the insertion flag. -/
def insertBody (now : Int) (lifetime : Option Int) (v : K × M) :
    Path → Tree K M → Nat → Bool → Tree K M × Bool :=
  fun nodePath tree _ inserted =>
    if insertAllowedB now (tree nodePath) then
      let newNode : TomNode K M :=
        match lifetime with
        | some L =>
            { key := v.1, mapped := v.2,
              dateCreated := some now, lifetime := some L }
        | none =>
            { key := v.1, mapped := v.2,
              dateCreated := (tree nodePath).bind (fun n => n.dateCreated),
              lifetime := none }
      (updateFn tree nodePath (some newNode), true)
    else (tree, inserted)

/-- `storage::internal_insert` (no lifetime overload). -/
def internalInsert (now : Int) (s : Storage K M) (path : Path) (v : K × M) :
    Storage K M × Except Unit Bool :=
  basicOperation true (insertBody now none v) s path false

/-- `storage::internal_insert_with_lifetime`. -/
def internalInsertWithLifetime (now : Int) (s : Storage K M) (path : Path)
    (v : K × M) (lifetime : Int) : Storage K M × Except Unit Bool :=
  basicOperation true (insertBody now (some lifetime) v) s path false

/-! ### Claims C7 and C8: the path resolver -/

/-- The claim's reading of a "'/'-delimited prefix of the input path,
including the whole path". -/
def specDelimPrefix (path q : Path) : Prop :=
  q <+: path ∧ (q = path ∨ path[q.length]? = some '/')

instance (path q : Path) : Decidable (specDelimPrefix path q) := by
  unfold specDelimPrefix
  infer_instance

/-- Registry used by the C7 counterexample: both "a" and "a/b" mounted. -/
def c7tbl : Path → Option Nat := fun p =>
  if p = "a".toList then some 0 else if p = "a/b".toList then some 1 else none

/-- Claim C7 counterexample: with both "a" and "a/b" registered, resolving
"a/b/c" returns the mount "a" with remainder "b/c" — the *shortest*
registered prefix — although "a/b" is a longer registered '/'-delimited
prefix of the same path, contradicting "the longer one is chosen". -/
theorem C7_counterexample :
    splitAndFind c7tbl "a/b/c".toList = some ("a".toList, "b/c".toList, 0) ∧
    c7tbl "a/b".toList = some 1 ∧
    specDelimPrefix "a/b/c".toList "a/b".toList ∧
    ("a".toList : Path).length < ("a/b".toList : Path).length := by
  refine ⟨?_, by decide, by decide, by decide⟩
  simp [splitAndFind, splitAndFindImpl, c7tbl]

/-- Claim C7 (amended): the resolver splits the path into the *shortest*
'/'-delimited prefix that is a registered mount identifier (the probe
grows segment by segment and the first hit wins) plus the remainder after
the delimiter; every strictly shorter candidate is unregistered, and the
consumed prefix and remainder reassemble the input path. -/
theorem C7_resolver_shortest_prefix {γ : Type} (tbl : Path → Option γ)
    (path mp rem : Path) (a : γ)
    (h : splitAndFind tbl path = some (mp, rem, a)) :
    tbl mp = some a ∧ mp ∈ splitCandidates [] path ∧
    (∀ q ∈ splitCandidates [] path, tbl q ≠ none → mp.length ≤ q.length) ∧
    (path = mp ++ '/' :: rem ∨ (path = mp ∧ rem = [])) := by
  have := splitAndFindImpl_some tbl [] path mp rem a h
  simpa using this

/-- Witness for C7 at the counterexample registry. -/
theorem C7_witness :
    splitAndFind c7tbl "a/b/c".toList = some ("a".toList, "b/c".toList, 0) ∧
    (c7tbl "a".toList = some 0 ∧ "a".toList ∈ splitCandidates [] "a/b/c".toList ∧
    (∀ q ∈ splitCandidates [] "a/b/c".toList, c7tbl q ≠ none →
      ("a".toList : Path).length ≤ q.length) ∧
    ("a/b/c".toList = "a".toList ++ '/' :: "b/c".toList ∨
      ("a/b/c".toList = "a".toList ∧ "b/c".toList = []))) :=
  ⟨by simp [splitAndFind, splitAndFindImpl, c7tbl],
   C7_resolver_shortest_prefix c7tbl "a/b/c".toList _ _ 0
     (by simp [splitAndFind, splitAndFindImpl, c7tbl])⟩

/-- Registry used by the C8 counterexample: only "a/" mounted. -/
def c8tbl : Path → Option (List MountNode) := fun p =>
  if p = "a/".toList then some [] else none

/-- Claim C8 counterexample: the whole path "a/" is a registered mount
identifier and a '/'-delimited prefix of itself, yet the resolver raises
`unmounted_path` (a path ending in '/' never has its full form probed). -/
theorem C8_counterexample :
    splitAndFind c8tbl "a/".toList = none ∧
    specDelimPrefix "a/".toList "a/".toList ∧
    c8tbl "a/".toList ≠ none := by
  refine ⟨?_, by decide, by decide⟩
  simp [splitAndFind, splitAndFindImpl, c8tbl]

/-- Claim C8 (amended): `basic_operation` — and with it every observer,
setter, modifier, insert and remove, which are all defined through it —
raises `unmounted_path` exactly when no *probed candidate* is registered,
the probed candidates being the prefixes cut immediately before some '/'
of the path together with the whole path when it is nonempty and does not
end in '/'; the empty path always raises, and a raised operation leaves
the storage state untouched. -/
theorem C8_unmounted_path_iff {σ : Type} [DecidableEq K] (isWrite : Bool)
    (body : Path → Tree K M → Nat → σ → Tree K M × σ)
    (s : Storage K M) (path : Path) (init : σ) (now : Int) (v : K × M) :
    ((basicOperation isWrite body s path init).2 = Except.error () ↔
      ∀ q, q <+: path →
        (path[q.length]? = some '/' ∨
          (q = path ∧ path ≠ [] ∧ path.getLast? ≠ some '/')) →
        s.mountTable q = none) ∧
    ((basicOperation isWrite body s path init).2 = Except.error () →
      (basicOperation isWrite body s path init).1 = s) ∧
    (path = [] → (basicOperation isWrite body s path init).2 = Except.error ()) ∧
    ((internalKey now s path).2 = Except.error () ↔
      (basicOperation isWrite body s path init).2 = Except.error ()) ∧
    ((internalInsert now s path v).2 = Except.error () ↔
      (basicOperation isWrite body s path init).2 = Except.error ()) := by
  have herr : ∀ {σ2 : Type} (isW : Bool)
      (bd : Path → Tree K M → Nat → σ2 → Tree K M × σ2) (ini : σ2),
      (basicOperation isW bd s path ini).2 = Except.error () ↔
        splitAndFind s.mountTable path = none := by
    intro σ2 isW bd ini
    rw [basicOperation]
    rcases h : splitAndFind s.mountTable path with _ | r
    · simp
    · simp
  have hchar : splitAndFind s.mountTable path = none ↔
      ∀ q, q <+: path →
        (path[q.length]? = some '/' ∨
          (q = path ∧ path ≠ [] ∧ path.getLast? ≠ some '/')) →
        s.mountTable q = none := by
    rw [splitAndFind, splitAndFindImpl_none_iff]
    constructor
    · intro hall q hpre hC
      apply hall
      rw [mem_splitCandidates_iff]
      exact ⟨q, by simp, hpre, hC⟩
    · intro hall q hq
      rw [mem_splitCandidates_iff] at hq
      rcases hq with ⟨r, hqr, hpre, hC⟩
      simp at hqr
      subst hqr
      exact hall _ hpre hC
  refine ⟨(herr isWrite body init).trans hchar, ?_, ?_, ?_, ?_⟩
  · intro he
    rw [basicOperation] at he ⊢
    rcases h : splitAndFind s.mountTable path with _ | r
    · rfl
    · rw [h] at he
      simp at he
  · intro hempty
    subst hempty
    rw [(herr isWrite body init), splitAndFind, splitAndFindImpl]
    simp
  · rw [herr isWrite body init]
    rcases h : splitAndFind s.mountTable path with _ | r
    · simp [internalKey, basicOperation, h, Except.map]
    · simp [internalKey, basicOperation, h, Except.map]
  · rw [herr isWrite body init]
    rcases h : splitAndFind s.mountTable path with _ | r
    · simp [internalInsert, basicOperation, h]
    · simp [internalInsert, basicOperation, h]

/-! ### Claim C10: mapped is the projection of value -/

/-- Claim C10: `internal_mapped` and `internal_value` are projections of
the one shared `internal_value_read`, so `mapped(path)` is exactly the
image of `value(path)` under the second projection (even as lists, hence
as multisets), and both leave the same final state. -/
theorem C10_mapped_projects_value [DecidableEq K] (now : Int)
    (s : Storage K M) (path : Path) :
    (internalMapped now s path).1 = (internalValue now s path).1 ∧
    (internalMapped now s path).2 =
      (internalValue now s path).2.map (fun acc => acc.map Prod.snd) := by
  unfold internalMapped internalValue
  rcases h : (internalValueRead now s path).2 with _ | acc
  · simp [Except.map, h]
  · simp [Except.map, h, List.map_map]

/-! ### Claim C5: the outdated test -/

/-- Claim C5: a visited node's contribution is dropped by the observer
bodies precisely when both optional fields are present and
`now - lifetime > date_created`; a node missing either optional field is
never outdated and always contributes its key (and mapped) to the
pre-resolution pool. -/
theorem C5_outdated_characterization [DecidableEq K] (now : Int)
    (n : TomNode K M) (p : Nat) :
    (outdatedB now n = true ↔
      ∃ d l, n.dateCreated = some d ∧ n.lifetime = some l ∧ now - l > d) ∧
    (n.dateCreated = none ∨ n.lifetime = none → outdatedB now n = false) ∧
    (∀ acc : List (K × M × Nat), outdatedB now n = true →
      valueBodyStep now acc (some n) p = acc) ∧
    (∀ acc : List (K × Nat), outdatedB now n = true →
      keyBodyStep now acc (some n) p = acc) ∧
    (outdatedB now n = false →
      liveValue now (some n, p) = some (n.key, n.mapped, p) ∧
      liveKey now (some n, p) = some (n.key, p)) ∧
    (liveValue now (some n, p) = none ↔ outdatedB now n = true) := by
  refine ⟨?_, ?_, ?_, ?_, ?_, ?_⟩
  · rw [outdatedB]
    rcases n.dateCreated with _ | d <;> rcases n.lifetime with _ | l <;> simp
  · rintro (h | h) <;> rw [outdatedB, h] <;> simp
  · intro acc h
    rw [valueBodyStep, h]
    simp
  · intro acc h
    rw [keyBodyStep, h]
    simp
  · intro h
    rw [liveValue, liveKey]
    simp [h]
  · rw [liveValue]
    rcases h : outdatedB now n with _ | _ <;> simp [h]

/-- Witness for C5 at a concrete node: present fields, expired. -/
theorem C5_witness :
    ((outdatedB 100 (⟨4, 40, some 10, some 5⟩ : TomNode Nat Nat) = true ↔
      ∃ d l, (some 10 : Option Int) = some d ∧ (some 5 : Option Int) = some l ∧
        (100 : Int) - l > d) ∧
    ((some 10 : Option Int) = none ∨ (some 5 : Option Int) = none →
      outdatedB 100 (⟨4, 40, some 10, some 5⟩ : TomNode Nat Nat) = false) ∧
    (∀ acc : List (Nat × Nat × Nat),
      outdatedB 100 (⟨4, 40, some 10, some 5⟩ : TomNode Nat Nat) = true →
      valueBodyStep 100 acc (some ⟨4, 40, some 10, some 5⟩) 3 = acc) ∧
    (∀ acc : List (Nat × Nat),
      outdatedB 100 (⟨4, 40, some 10, some 5⟩ : TomNode Nat Nat) = true →
      keyBodyStep 100 acc (some ⟨4, 40, some 10, some 5⟩) 3 = acc) ∧
    (outdatedB 100 (⟨4, 40, some 10, some 5⟩ : TomNode Nat Nat) = false →
      liveValue 100 (some ⟨4, 40, some 10, some 5⟩, 3) = some (4, 40, 3) ∧
      liveKey 100 (some ⟨4, 40, some 10, some 5⟩, 3) = some (4, 3)) ∧
    (liveValue 100 ((some ⟨4, 40, some 10, some 5⟩ :
        Option (TomNode Nat Nat)), 3) = none ↔
      outdatedB 100 (⟨4, 40, some 10, some 5⟩ : TomNode Nat Nat) = true)) :=
  C5_outdated_characterization 100 ⟨4, 40, some 10, some 5⟩ 3

/-! ### Claims C6 and C9: insert across bindings and the tree lifecycle -/

/-- The tree a binding's body runs on: the cached tree of the document
handle if materialized, otherwise the tree parsed from the file. -/
def effTree (s : Storage K M) (b : MountNode) : Tree K M :=
  match (s.tomTable b.tomName).tree with
  | some tr => tr
  | none => s.files b.tomName

/-- Ghost instrumentation of `basic_insert`: the per-binding
insertion-allowed decisions, in visit order, along the very state
evolution of the fold. -/
def insertTrace (now : Int) (lifetime : Option Int) (v : K × M) (rem : Path) :
    Storage K M → List MountNode → List Bool
  | _, [] => []
  | s, b :: bs =>
      insertAllowedB now (effTree s b (nodePathOf rem b)) ::
        insertTrace now lifetime v rem
          (bindingStep true (insertBody now lifetime v) rem (s, false) b).1 bs

theorem bindingStep_insert_split (now : Int) (lifetime : Option Int)
    (v : K × M) (rem : Path) (s : Storage K M) (fl : Bool) (b : MountNode) :
    bindingStep true (insertBody now lifetime v) rem (s, fl) b =
      ((bindingStep true (insertBody now lifetime v) rem (s, false) b).1,
       fl || insertAllowedB now (effTree s b (nodePathOf rem b))) := by
  by_cases hall : insertAllowedB now (effTree s b (nodePathOf rem b)) = true
  · rw [hall]
    simp only [effTree] at hall
    simp [bindingStep, insertBody, hall]
  · rw [Bool.not_eq_true] at hall
    rw [hall]
    simp only [effTree] at hall
    simp [bindingStep, insertBody, hall]

theorem insert_fold_or (now : Int) (lifetime : Option Int) (v : K × M)
    (rem : Path) :
    ∀ (bs : List MountNode) (s : Storage K M) (fl : Bool),
    ((bs.foldl (bindingStep true (insertBody now lifetime v) rem) (s, fl)).2 =
      (fl || (insertTrace now lifetime v rem s bs).any id)) ∧
    ((bs.foldl (bindingStep true (insertBody now lifetime v) rem) (s, fl)).1 =
      (bs.foldl (bindingStep true (insertBody now lifetime v) rem) (s, false)).1) := by
  intro bs
  induction bs with
  | nil =>
    intro s fl
    simp [insertTrace]
  | cons b bs ih =>
    intro s fl
    rw [List.foldl_cons, List.foldl_cons,
      bindingStep_insert_split now lifetime v rem s fl b,
      bindingStep_insert_split now lifetime v rem s false b]
    rw [insertTrace]
    constructor
    · rw [(ih _ _).1, List.any_cons]
      cases fl <;>
        cases insertAllowedB now (effTree s b (nodePathOf rem b)) <;> simp
    · rw [(ih _ _).2]
      have := (ih (bindingStep true (insertBody now lifetime v) rem (s, false) b).1
        (false || insertAllowedB now (effTree s b (nodePathOf rem b)))).2
      rw [this]

/-- Claim C6: per binding, insertion is gated exactly on "node absent or
outdated"; an allowed binding's tree gets `key` and `mapped` written,
`date_created := now` and the lifetime when one is provided, the
`lifetime` child erased (and any old `date_created` kept) when not, all
other paths untouched; a disallowed binding changes nothing; and across
the resolved bindings the returned boolean is the OR of the per-binding
write flags, true iff at least one binding performed the write. -/
theorem C6_insert_gate_and_or (now : Int) (lifetime : Option Int)
    (v : K × M) (s : Storage K M) (path mp rem : Path) (bs : List MountNode)
    (hres : splitAndFind s.mountTable path = some (mp, rem, bs)) :
    (∀ c : Option (TomNode K M), insertAllowedB now c = true ↔
       c = none ∨ ∃ n, c = some n ∧ outdatedB now n = true) ∧
    (∀ (np : Path) (tr : Tree K M) (p : Nat) (fl : Bool),
      (insertAllowedB now (tr np) = true →
        (insertBody now lifetime v np tr p fl).1 np = some
          { key := v.1, mapped := v.2,
            dateCreated := match lifetime with
              | some _ => some now
              | none => (tr np).bind (fun n => n.dateCreated),
            lifetime := lifetime } ∧
        (∀ q, q ≠ np → (insertBody now lifetime v np tr p fl).1 q = tr q) ∧
        (insertBody now lifetime v np tr p fl).2 = true) ∧
      (insertAllowedB now (tr np) = false →
        insertBody now lifetime v np tr p fl = (tr, fl))) ∧
    ((basicOperation true (insertBody now lifetime v) s path false).2 =
      Except.ok ((insertTrace now lifetime v rem s bs).any id)) ∧
    ((internalInsert now s path v).2 =
      Except.ok ((insertTrace now none v rem s bs).any id)) ∧
    (∀ L : Int, (internalInsertWithLifetime now s path v L).2 =
      Except.ok ((insertTrace now (some L) v rem s bs).any id)) := by
  refine ⟨?_, ?_, ?_, ?_, ?_⟩
  · intro c
    rcases c with _ | n
    · simp [insertAllowedB]
    · rcases n with ⟨nk, nm, nd, nl⟩
      rcases nd with _ | d <;> rcases nl with _ | l <;>
        simp [insertAllowedB, outdatedB]
  · intro np tr p fl
    constructor
    · intro hall
      simp only [insertBody, hall, if_true]
      refine ⟨?_, ?_, by trivial⟩
      · rcases lifetime with _ | L <;> simp [updateFn]
      · intro q hqp
        rcases lifetime with _ | L <;> simp [updateFn, hqp]
    · intro hall
      simp only [insertBody, hall]
      simp
  · rw [basicOperation, hres]
    dsimp only
    rw [(insert_fold_or now lifetime v rem bs s false).1]
    simp
  · rw [internalInsert, basicOperation, hres]
    dsimp only
    rw [(insert_fold_or now none v rem bs s false).1]
    simp
  · intro L
    rw [internalInsertWithLifetime, basicOperation, hres]
    dsimp only
    rw [(insert_fold_or now (some L) v rem bs s false).1]
    simp

/-- A document handle at rest between operations: no materialized tree
and no pending readers or writers; `quiescent` states it of every handle
of the storage. -/
def quiescent (s : Storage K M) : Prop :=
  ∀ t, (s.tomTable t).tree = none ∧ (s.tomTable t).pendingReaders = 0 ∧
    (s.tomTable t).pendingWriters = 0

theorem bindingStep_quiescent {σ : Type} (isWrite : Bool)
    (body : Path → Tree K M → Nat → σ → Tree K M × σ)
    (rem : Path) (s : Storage K M) (acc : σ) (b : MountNode)
    (hq : quiescent s) :
    quiescent (bindingStep isWrite body rem (s, acc) b).1 ∧
    ((bindingStep isWrite body rem (s, acc) b).1.tomTable b.tomName).tree = none ∧
    (isWrite = true →
      (bindingStep isWrite body rem (s, acc) b).1.files b.tomName =
        (body (nodePathOf rem b) (s.files b.tomName) b.priority acc).1) ∧
    (isWrite = false →
      (bindingStep isWrite body rem (s, acc) b).1.files = s.files) := by
  obtain ⟨ht, hr, hw⟩ := hq b.tomName
  rw [bindingStep]
  dsimp only
  rcases isWrite with _ | _
  · -- read operation
    refine ⟨?_, ?_, ?_, ?_⟩
    · intro t
      rcases htb : decide (t = b.tomName) with _ | _
      · have hne : t ≠ b.tomName := of_decide_eq_false htb
        simp only [updateFn, if_neg hne]
        exact hq t
      · have heq : t = b.tomName := of_decide_eq_true htb
        subst heq
        simp only [updateFn, if_pos rfl]
        rw [ht, hr, hw]
        simp
    · simp only [updateFn, if_pos rfl]
      rw [ht, hr, hw]
      simp
    · intro h
      cases h
    · intro _
      rfl
  · -- write operation
    refine ⟨?_, ?_, ?_, ?_⟩
    · intro t
      rcases htb : decide (t = b.tomName) with _ | _
      · have hne : t ≠ b.tomName := of_decide_eq_false htb
        simp only [updateFn, if_neg hne]
        exact hq t
      · have heq : t = b.tomName := of_decide_eq_true htb
        subst heq
        simp only [updateFn, if_pos rfl]
        rw [ht, hr, hw]
        simp
    · simp only [updateFn, if_pos rfl]
      rw [ht, hr, hw]
      simp
    · intro _
      rw [ht, hw]
      simp [updateFn]
    · intro h
      cases h

/-- Claim C9: in a sequential (single-threaded) run starting from the
between-operations invariant — every handle quiescent with no cached
tree — each binding step re-reads the tree from the file, and at its end
a write operation has serialized the post-body tree back to the file
before the tree is destroyed; after the whole operation (including the
error path) every document handle's tree pointer is null again, so no
parsed tree survives between operations. -/
theorem C9_tree_lifecycle {σ : Type} (isWrite : Bool)
    (body : Path → Tree K M → Nat → σ → Tree K M × σ)
    (s : Storage K M) (path : Path) (init : σ) (hq : quiescent s) :
    (∀ (s2 : Storage K M) (acc : σ) (rem : Path) (b : MountNode), quiescent s2 →
      quiescent (bindingStep isWrite body rem (s2, acc) b).1 ∧
      ((bindingStep isWrite body rem (s2, acc) b).1.tomTable b.tomName).tree = none ∧
      (isWrite = true →
        (bindingStep isWrite body rem (s2, acc) b).1.files b.tomName =
          (body (nodePathOf rem b) (s2.files b.tomName) b.priority acc).1)) ∧
    quiescent (basicOperation isWrite body s path init).1 := by
  constructor
  · intro s2 acc rem b hq2
    have := bindingStep_quiescent isWrite body rem s2 acc b hq2
    exact ⟨this.1, this.2.1, this.2.2.1⟩
  · rw [basicOperation]
    rcases h : splitAndFind s.mountTable path with _ | r
    · exact hq
    · rcases r with ⟨mp, rem, bs⟩
      dsimp only
      have hfold : ∀ (bs : List MountNode) (st : Storage K M × σ), quiescent st.1 →
          quiescent (bs.foldl (bindingStep isWrite body rem) st).1 := by
        intro bs
        induction bs with
        | nil => intro st hst; exact hst
        | cons b bs2 ih =>
          intro st hst
          rw [List.foldl_cons]
          rcases st with ⟨s2, acc⟩
          exact ih _ (bindingStep_quiescent isWrite body rem s2 acc b hst).1
      exact hfold bs (s, init) hq

/-! ### Claim C4: priority resolution of the observers -/

/-- The per-binding observer inputs of a read operation: the node found
in the binding's document at the node path, with the binding's priority,
in visit order. -/
def readContribs (s : Storage K M) (rem : Path) (bs : List MountNode) :
    List (Option (TomNode K M) × Nat) :=
  bs.map (fun b => (s.files b.tomName (nodePathOf rem b), b.priority))

theorem bindingStep_read {σ : Type} (g : Path → Tree K M → Nat → σ → σ)
    (rem : Path) (s : Storage K M) (acc : σ) (b : MountNode)
    (hq : quiescent s) :
    ((bindingStep false (fun np tr p a => (tr, g np tr p a)) rem (s, acc) b).2 =
      g (nodePathOf rem b) (s.files b.tomName) b.priority acc) ∧
    ((bindingStep false (fun np tr p a => (tr, g np tr p a)) rem (s, acc) b).1.files
      = s.files) ∧
    quiescent (bindingStep false (fun np tr p a => (tr, g np tr p a)) rem (s, acc) b).1 := by
  obtain ⟨ht, hr, hw⟩ := hq b.tomName
  have hstep := bindingStep_quiescent false
    (fun np tr p a => (tr, g np tr p a)) rem s acc b hq
  refine ⟨?_, hstep.2.2.2 rfl, hstep.1⟩
  simp [bindingStep, ht]

theorem readFold_spec {σ : Type} (g : Path → Tree K M → Nat → σ → σ)
    (rem : Path) :
    ∀ (bs : List MountNode) (s : Storage K M) (acc : σ), quiescent s →
    ((bs.foldl (bindingStep false (fun np tr p a => (tr, g np tr p a)) rem)
        (s, acc)).2 =
      bs.foldl (fun a b => g (nodePathOf rem b) (s.files b.tomName) b.priority a) acc) := by
  intro bs
  induction bs with
  | nil => intro s acc hq; rfl
  | cons b bs2 ih =>
    intro s acc hq
    rw [List.foldl_cons, List.foldl_cons]
    obtain ⟨hsig, hfiles, hq2⟩ := bindingStep_read g rem s acc b hq
    rcases hstep : bindingStep false (fun np tr p a => (tr, g np tr p a)) rem
      (s, acc) b with ⟨s1, acc1⟩
    rw [hstep] at hsig hfiles hq2
    dsimp only at hsig hfiles hq2
    rw [ih s1 acc1 hq2, hfiles, hsig]

theorem keyFold_filterMap [DecidableEq K] (now : Int) :
    ∀ (contribs : List (Option (TomNode K M) × Nat)) (acc : List (K × Nat)),
    contribs.foldl (fun a c => keyBodyStep now a c.1 c.2) acc =
      (contribs.filterMap (liveKey now)).foldl (prioStep Prod.fst Prod.snd) acc := by
  intro contribs
  induction contribs with
  | nil => intro acc; rfl
  | cons c cs ih =>
    intro acc
    rcases c with ⟨cn, p⟩
    rcases cn with _ | n
    · simp only [List.foldl_cons, List.filterMap_cons]
      rw [show liveKey (M := M) now (none, p) = none from rfl]
      rw [show keyBodyStep (M := M) now acc none p = acc from rfl]
      exact ih acc
    · rcases hod : outdatedB now n with _ | _
      · simp only [List.foldl_cons, List.filterMap_cons]
        rw [show liveKey now (some n, p) = some (n.key, p) by simp [liveKey, hod]]
        rw [show keyBodyStep now acc (some n) p =
          prioStep Prod.fst Prod.snd acc (n.key, p) by simp [keyBodyStep, hod]]
        exact ih _
      · simp only [List.foldl_cons, List.filterMap_cons]
        rw [show liveKey (M := M) now (some n, p) = none by simp [liveKey, hod]]
        rw [show keyBodyStep (M := M) now acc (some n) p = acc by
          simp [keyBodyStep, hod]]
        exact ih _

theorem valueFold_filterMap [DecidableEq K] (now : Int) :
    ∀ (contribs : List (Option (TomNode K M) × Nat)) (acc : List (K × M × Nat)),
    contribs.foldl (fun a c => valueBodyStep now a c.1 c.2) acc =
      (contribs.filterMap (liveValue now)).foldl
        (prioStep Prod.fst (fun e => e.2.2)) acc := by
  intro contribs
  induction contribs with
  | nil => intro acc; rfl
  | cons c cs ih =>
    intro acc
    rcases c with ⟨cn, p⟩
    rcases cn with _ | n
    · simp only [List.foldl_cons, List.filterMap_cons]
      rw [show liveValue (M := M) now (none, p) = none from rfl]
      rw [show valueBodyStep (M := M) now acc none p = acc from rfl]
      exact ih acc
    · rcases hod : outdatedB now n with _ | _
      · simp only [List.foldl_cons, List.filterMap_cons]
        rw [show liveValue now (some n, p) = some (n.key, n.mapped, p) by
          simp [liveValue, hod]]
        rw [show valueBodyStep now acc (some n) p =
          prioStep Prod.fst (fun e => e.2.2) acc (n.key, n.mapped, p) by
          simp [valueBodyStep, hod]]
        exact ih _
      · simp only [List.foldl_cons, List.filterMap_cons]
        rw [show liveValue (M := M) now (some n, p) = none by simp [liveValue, hod]]
        rw [show valueBodyStep (M := M) now acc (some n) p = acc by
          simp [valueBodyStep, hod]]
        exact ih _

/-- Claim C4: against a quiescent storage whose path resolves to the
binding list `bs`, `internal_value_read` (hence `mapped` and `value`) and
`internal_key` return exactly the live (present, non-outdated)
contributions whose priority is maximal for their key: one output entry
per live max-priority binding contribution — duplicates at the shared
highest priority all kept — and none from lower-priority bindings; the
per-entry multiplicity is that of the live contribution pool when the
entry is max-priority for its key and zero otherwise, and a permutation
of the visit order only permutes the result. -/
theorem C4_observer_priority_resolution [DecidableEq K] [DecidableEq M]
    (now : Int) (s : Storage K M) (path mp rem : Path) (bs : List MountNode)
    (hq : quiescent s)
    (hres : splitAndFind s.mountTable path = some (mp, rem, bs)) :
    ((internalValueRead now s path).2 = Except.ok
      (resolveMax Prod.fst (fun e => e.2.2)
        ((readContribs s rem bs).filterMap (liveValue now)))) ∧
    ((internalKey now s path).2 = Except.ok
      ((resolveMax Prod.fst Prod.snd
        ((readContribs s rem bs).filterMap (liveKey now))).map Prod.fst)) ∧
    (∀ e : K × M × Nat,
      (resolveMax Prod.fst (fun f : K × M × Nat => f.2.2)
        ((readContribs s rem bs).filterMap (liveValue now))).countP
          (fun f => decide (f = e)) =
        if ∀ f ∈ (readContribs s rem bs).filterMap (liveValue now),
            f.1 = e.1 → f.2.2 ≤ e.2.2
        then ((readContribs s rem bs).filterMap (liveValue now)).countP
          (fun f => decide (f = e))
        else 0) ∧
    (∀ contribs2 : List (Option (TomNode K M) × Nat),
      contribs2.Perm (readContribs s rem bs) →
      (resolveMax Prod.fst (fun e => e.2.2)
        (contribs2.filterMap (liveValue now))).Perm
      (resolveMax Prod.fst (fun e => e.2.2)
        ((readContribs s rem bs).filterMap (liveValue now)))) := by
  have hvfold : (basicOperation false (valueBody now) s path
      ([] : List (K × M × Nat))).2 = Except.ok
      (resolveMax Prod.fst (fun e => e.2.2)
        ((readContribs s rem bs).filterMap (liveValue now))) := by
    rw [basicOperation, hres]
    dsimp only
    rw [show valueBody (K := K) (M := M) now =
      (fun np tr p a => (tr, valueBodyStep now a (tr np) p)) from rfl]
    rw [readFold_spec _ rem bs s [] hq]
    rw [show (bs.foldl (fun a b => valueBodyStep now a
        (s.files b.tomName (nodePathOf rem b)) b.priority) []) =
      ((readContribs s rem bs).foldl
        (fun a c => valueBodyStep now a c.1 c.2) []) by
      rw [readContribs, List.foldl_map]]
    rw [valueFold_filterMap now, prioFold_resolveMax]
  have hkfold : (basicOperation false (keyBody now) s path
      ([] : List (K × Nat))).2 = Except.ok
      (resolveMax Prod.fst Prod.snd
        ((readContribs s rem bs).filterMap (liveKey now))) := by
    rw [basicOperation, hres]
    dsimp only
    rw [show keyBody (K := K) (M := M) now =
      (fun np tr p a => (tr, keyBodyStep now a (tr np) p)) from rfl]
    rw [readFold_spec _ rem bs s [] hq]
    rw [show (bs.foldl (fun a b => keyBodyStep now a
        (s.files b.tomName (nodePathOf rem b)) b.priority) []) =
      ((readContribs s rem bs).foldl
        (fun a c => keyBodyStep now a c.1 c.2) []) by
      rw [readContribs, List.foldl_map]]
    rw [keyFold_filterMap now, prioFold_resolveMax]
  refine ⟨?_, ?_, ?_, ?_⟩
  · rw [internalValueRead]
    exact hvfold
  · rw [internalKey]
    dsimp only
    rw [hkfold]
    rfl
  · intro e
    exact countP_resolveMax Prod.fst (fun f : K × M × Nat => f.2.2) _ e
  · intro contribs2 hperm
    exact resolveMax_perm Prod.fst (fun f : K × M × Nat => f.2.2) _ _
      (hperm.filterMap _)

/-! ### Concrete storage used by the storage-claim witnesses -/

def wB1 : MountNode := ⟨"t1".toList, "a".toList, 1⟩

def wB2 : MountNode := ⟨"t2".toList, "a".toList, 2⟩

def wStorage : Storage Nat Nat :=
  { mountTable := fun m => if m = "mnt".toList then some [wB1, wB2] else none,
    tomTable := fun _ => ⟨none, 0, 0⟩,
    files := fun t p =>
      if t = "t1".toList then
        (if p = "tom/root/a/d".toList then some ⟨4, 40, none, none⟩ else none)
      else if t = "t2".toList then
        (if p = "tom/root/a/d".toList then some ⟨4, 41, none, none⟩ else none)
      else none }

theorem wStorage_quiescent : quiescent wStorage :=
  fun _ => ⟨rfl, rfl, rfl⟩

theorem wStorage_resolve :
    splitAndFind wStorage.mountTable "mnt/d".toList =
      some ("mnt".toList, "d".toList, [wB1, wB2]) := by
  simp [splitAndFind, splitAndFindImpl, wStorage]

/-- Witness for C4 at the two-binding storage with priorities 1 and 2. -/
theorem C4_witness :
    ((internalValueRead 100 wStorage "mnt/d".toList).2 = Except.ok
      (resolveMax Prod.fst (fun e => e.2.2)
        ((readContribs wStorage "d".toList [wB1, wB2]).filterMap (liveValue 100)))) ∧
    ((internalKey 100 wStorage "mnt/d".toList).2 = Except.ok
      ((resolveMax Prod.fst Prod.snd
        ((readContribs wStorage "d".toList [wB1, wB2]).filterMap (liveKey 100))).map
          Prod.fst)) ∧
    (∀ e : Nat × Nat × Nat,
      (resolveMax Prod.fst (fun f : Nat × Nat × Nat => f.2.2)
        ((readContribs wStorage "d".toList [wB1, wB2]).filterMap
          (liveValue 100))).countP (fun f => decide (f = e)) =
        if ∀ f ∈ (readContribs wStorage "d".toList [wB1, wB2]).filterMap
            (liveValue 100), f.1 = e.1 → f.2.2 ≤ e.2.2
        then ((readContribs wStorage "d".toList [wB1, wB2]).filterMap
          (liveValue 100)).countP (fun f => decide (f = e))
        else 0) ∧
    (∀ contribs2 : List (Option (TomNode Nat Nat) × Nat),
      contribs2.Perm (readContribs wStorage "d".toList [wB1, wB2]) →
      (resolveMax Prod.fst (fun f : Nat × Nat × Nat => f.2.2)
        (contribs2.filterMap (liveValue 100))).Perm
      (resolveMax Prod.fst (fun f : Nat × Nat × Nat => f.2.2)
        ((readContribs wStorage "d".toList [wB1, wB2]).filterMap (liveValue 100)))) :=
  C4_observer_priority_resolution 100 wStorage "mnt/d".toList "mnt".toList
    "d".toList [wB1, wB2] wStorage_quiescent wStorage_resolve

/-- Witness for C6 at the same storage, inserting (7, 700) with a
5-second lifetime. -/
theorem C6_witness :
    (∀ c : Option (TomNode Nat Nat), insertAllowedB 100 c = true ↔
       c = none ∨ ∃ n, c = some n ∧ outdatedB 100 n = true) ∧
    (∀ (np : Path) (tr : Tree Nat Nat) (p : Nat) (fl : Bool),
      (insertAllowedB 100 (tr np) = true →
        (insertBody 100 (some 5) (7, 700) np tr p fl).1 np = some
          { key := (7, 700).1, mapped := (7, 700).2,
            dateCreated := match (some 5 : Option Int) with
              | some _ => some 100
              | none => (tr np).bind (fun n => n.dateCreated),
            lifetime := some 5 } ∧
        (∀ q, q ≠ np → (insertBody 100 (some 5) (7, 700) np tr p fl).1 q = tr q) ∧
        (insertBody 100 (some 5) (7, 700) np tr p fl).2 = true) ∧
      (insertAllowedB 100 (tr np) = false →
        insertBody 100 (some 5) (7, 700) np tr p fl = (tr, fl))) ∧
    ((basicOperation true (insertBody 100 (some 5) (7, 700)) wStorage
        "mnt/d".toList false).2 =
      Except.ok ((insertTrace 100 (some 5) (7, 700) "d".toList wStorage
        [wB1, wB2]).any id)) ∧
    ((internalInsert 100 wStorage "mnt/d".toList (7, 700)).2 =
      Except.ok ((insertTrace 100 none (7, 700) "d".toList wStorage
        [wB1, wB2]).any id)) ∧
    (∀ L : Int, (internalInsertWithLifetime 100 wStorage "mnt/d".toList
        (7, 700) L).2 =
      Except.ok ((insertTrace 100 (some L) (7, 700) "d".toList wStorage
        [wB1, wB2]).any id)) :=
  C6_insert_gate_and_or 100 (some 5) (7, 700) wStorage "mnt/d".toList
    "mnt".toList "d".toList [wB1, wB2] wStorage_resolve

/-- Witness for C9 at the same storage, running the lifetime insert as
the write operation. -/
theorem C9_witness :
    (∀ (s2 : Storage Nat Nat) (acc : Bool) (rem : Path) (b : MountNode),
      quiescent s2 →
      quiescent (bindingStep true (insertBody 100 (some 5) (7, 700)) rem
        (s2, acc) b).1 ∧
      ((bindingStep true (insertBody 100 (some 5) (7, 700)) rem
        (s2, acc) b).1.tomTable b.tomName).tree = none ∧
      (true = true →
        (bindingStep true (insertBody 100 (some 5) (7, 700)) rem
          (s2, acc) b).1.files b.tomName =
          (insertBody 100 (some 5) (7, 700) (nodePathOf rem b)
            (s2.files b.tomName) b.priority acc).1)) ∧
    quiescent (basicOperation true (insertBody 100 (some 5) (7, 700))
      wStorage "mnt/d".toList false).1 :=
  C9_tree_lifecycle true (insertBody 100 (some 5) (7, 700)) wStorage
    "mnt/d".toList false wStorage_quiescent

end TomKV
